import Mathlib

/-!
# Verification of the esp32-dataformat transactional SPIFFS layer and staging buffer

Shallow embedding of the core logic of `CSpiffsSystem` (file
`src/unnamed/part_004`, the current English-commented revision of
`CSpiffsSystem.cpp`) and `CBufferSystem` (`src/CBufferSystem.cpp`).

Modelling conventions, fixed once and used throughout:

* A file name (`std::string`, a `dirent::d_name`) is a `List Char`; working
  with char lists rather than `String` mirrors the C++ index/substr
  manipulation (`fname[fname.length()-1]`, `fname.substr(0, len-1)`) exactly.
* The SPIFFS root directory is a flat association list from names to byte
  contents (`List (Name × Content)`).  The constant `"/spiffs/"` mount point
  that the C++ prepends to every name is elided: keys are the `d_name`
  entries as `readdir` yields them.
* `std::remove` of an absent file fails and is ignored by the code, so it is
  a no-op on the state; `std::rename` of an absent source likewise; both
  match the POSIX calls the code makes.
* `readdir` loops iterate over a snapshot of the directory taken at
  `opendir` time; the model quantifies over arbitrary snapshot orders by
  quantifying over the association-list order.
* `std::fopen(_, "w")` creates-or-truncates, `std::fopen(_, "a")` creates if
  absent; `ftell` immediately after an `"a"` open yields the current file
  size (newlib seeks append streams to the end on open, which is the
  behaviour the offset logic of the `wr` command is written against).
-/

set_option autoImplicit false

namespace DataFormat

/-- A file name: the character sequence of a `std::string`. -/
abbrev Name := List Char

/-- File contents: a byte sequence. -/
abbrev Content := List Nat

/-- The flat SPIFFS root directory: names bound to contents. -/
abbrev Fs := List (Name × Content)

/-- First-match association lookup, the model of opening/statting a name. -/
def lookupFs : Fs → Name → Option Content
  | [], _ => none
  | (k, c) :: t, n => if k = n then some c else lookupFs t n

/-- A name exists in the directory. -/
def memFs (fs : Fs) (n : Name) : Bool :=
  (lookupFs fs n).isSome

/-- `std::remove` of an existing name (no-op when absent). -/
def removeFs (fs : Fs) (n : Name) : Fs :=
  fs.filter (fun e => decide (e.1 ≠ n))

/-- Create-or-truncate a binding (`fopen "w"` followed by a write). -/
def insertFs (fs : Fs) (n : Name) (c : Content) : Fs :=
  (n, c) :: removeFs fs n

/-- `std::rename a b`: moves the content of `a` over `b`; fails (no-op) when
`a` is absent, silently replaces an existing `b`, like the POSIX call. -/
def renameFs (fs : Fs) (a b : Name) : Fs :=
  match lookupFs fs a with
  | none => fs
  | some c => insertFs (removeFs fs a) b c

/-- The snapshot of names a `readdir` loop iterates over. -/
def keysFs (fs : Fs) : List Name :=
  fs.map Prod.fst

/-! ## Basic lookup lemmas -/

theorem lookupFs_removeFs (fs : Fs) (a n : Name) :
    lookupFs (removeFs fs a) n = if n = a then none else lookupFs fs n := by
  induction fs with
  | nil => simp [removeFs, lookupFs]
  | cons e t ih =>
    by_cases hk : e.1 = a
    · have : removeFs (e :: t) a = removeFs t a := by
        simp [removeFs, hk]
      rw [this, ih]
      by_cases hn : n = a
      · simp [hn]
      · have h1 : ¬ e.1 = n := fun h => hn (by rw [← h, hk])
        simp [hn, lookupFs, h1]
    · have : removeFs (e :: t) a = e :: removeFs t a := by
        simp [removeFs, hk]
      rw [this]
      by_cases hn : e.1 = n
      · have hna : ¬ n = a := fun h => hk (hn.trans h)
        simp [lookupFs, hn, hna]
      · simp [lookupFs, hn, ih]

theorem lookupFs_insertFs (fs : Fs) (a : Name) (c : Content) (n : Name) :
    lookupFs (insertFs fs a c) n = if n = a then some c else lookupFs fs n := by
  unfold insertFs
  by_cases hn : n = a
  · simp [lookupFs, hn]
  · have : ¬ a = n := fun h => hn h.symm
    simp [lookupFs, this, hn, lookupFs_removeFs]

theorem lookupFs_renameFs (fs : Fs) (a b n : Name) :
    lookupFs (renameFs fs a b) n =
      match lookupFs fs a with
      | none => lookupFs fs n
      | some c => if n = b then some c else if n = a then none else lookupFs fs n := by
  unfold renameFs
  cases h : lookupFs fs a with
  | none => simp
  | some c =>
    simp [lookupFs_insertFs, lookupFs_removeFs]

theorem mem_keysFs_of_lookup {fs : Fs} {n : Name} (h : (lookupFs fs n).isSome) :
    n ∈ keysFs fs := by
  induction fs with
  | nil => simp [lookupFs] at h
  | cons e t ih =>
    by_cases hk : e.1 = n
    · simp [keysFs, hk]
    · simp [lookupFs, hk] at h
      simp [keysFs] at ih ⊢
      exact Or.inr (by simpa [keysFs] using ih h)

theorem lookup_isSome_of_mem_keysFs {fs : Fs} {n : Name} (h : n ∈ keysFs fs) :
    (lookupFs fs n).isSome := by
  induction fs with
  | nil => simp [keysFs] at h
  | cons e t ih =>
    by_cases hk : e.1 = n
    · simp [lookupFs, hk]
    · simp [keysFs, hk] at h
      rcases h with h | h
      · exact absurd h.symm hk
      · simpa [lookupFs, hk] using ih (by simpa [keysFs] using h)

theorem memFs_iff_mem_keysFs (fs : Fs) (n : Name) :
    memFs fs n = true ↔ n ∈ keysFs fs :=
  ⟨fun h => mem_keysFs_of_lookup h, fun h => lookup_isSome_of_mem_keysFs h⟩

theorem keysFs_removeFs_sublist (fs : Fs) (a : Name) :
    (keysFs (removeFs fs a)).Sublist (keysFs fs) := by
  induction fs with
  | nil => simp [keysFs, removeFs]
  | cons e t ih =>
    by_cases hk : e.1 = a
    · have h : removeFs (e :: t) a = removeFs t a := by simp [removeFs, hk]
      rw [h]
      exact ih.trans (List.sublist_cons_self _ _)
    · have h : removeFs (e :: t) a = e :: removeFs t a := by simp [removeFs, hk]
      rw [h]
      exact ih.cons₂ e.1

/-! ## Name classification

`endTransaction` classifies a directory entry by its final character, read as
`fname[fname.length() - 1]`; `readdir` never yields an empty name, and the
model only ever applies these tests through folds over directory snapshots. -/

/-- The global transaction marker `"/spiffs/$"`. -/
def markerName : Name := ['$']

/-- `fname[fname.length() - 1] == c` for a nonempty name. -/
def lastIs (n : Name) (c : Char) : Bool :=
  n.getLast? == some c

/-- `(fname.length() > 1) && (fname[fname.length()-1] == '!')`:
a staged-delete entry. -/
def isStagedBang (n : Name) : Bool :=
  decide (1 < n.length) && lastIs n '!'

/-- `(fname.length() > 1) && (fname[fname.length()-1] == '$')`:
a staged-rename entry. -/
def isStagedDollar (n : Name) : Bool :=
  decide (1 < n.length) && lastIs n '$'

/-- A plain (non-reserved) nonempty name: ends in neither `'$'` nor `'!'`. -/
def plainB (n : Name) : Bool :=
  decide (n ≠ []) && !(lastIs n '$') && !(lastIs n '!')

theorem lastIs_concat (n : Name) (c d : Char) :
    lastIs (n ++ [c]) d = (c == d) := by
  simp [lastIs]

theorem reconstruct_of_lastIs {n : Name} {c : Char} (h : lastIs n c = true) :
    n = n.dropLast ++ [c] := by
  unfold lastIs at h
  have h' : n.getLast? = some c := by simpa using h
  have hne : n ≠ [] := by
    intro he; rw [he] at h'; simp at h'
  have := List.dropLast_append_getLast hne
  rw [List.getLast?_eq_getLast n hne] at h'
  rw [← Option.some_inj.mp h']
  exact this.symm

theorem plainB_not_dollar {n : Name} (h : plainB n = true) : lastIs n '$' = false := by
  unfold plainB at h
  simp only [Bool.and_eq_true] at h
  simpa using h.1.2

theorem plainB_not_bang {n : Name} (h : plainB n = true) : lastIs n '!' = false := by
  unfold plainB at h
  simp only [Bool.and_eq_true] at h
  simpa using h.2

theorem plainB_ne_nil {n : Name} (h : plainB n = true) : n ≠ [] := by
  unfold plainB at h
  simp only [Bool.and_eq_true] at h
  simpa using h.1.1

/-- A plain name never coincides with a `'$'`-suffixed one. -/
theorem plain_ne_dollar_concat {b x : Name} (h : plainB b = true) :
    b ≠ x ++ ['$'] := by
  intro he
  have := plainB_not_dollar h
  rw [he, lastIs_concat] at this
  simp at this

/-- A plain name never coincides with a `'!'`-suffixed one. -/
theorem plain_ne_bang_concat {b x : Name} (h : plainB b = true) :
    b ≠ x ++ ['!'] := by
  intro he
  have := plainB_not_bang h
  rw [he, lastIs_concat] at this
  simp at this

/-! ## `endTransaction` (src/unnamed/part_004:222-327)

Two modes, selected by `fopen("/spiffs/$", "r")`:

* marker absent — one `readdir` pass deleting every entry whose final
  character is `'$'` or `'!'` (no length guard in this branch), setting the
  modified flag for each;
* marker present — one `readdir` pass completing staged deletes
  (`remove(A)`, `remove(A!)` for every `A!` with length > 1), then a fresh
  `opendir`/`readdir` pass completing staged renames (`remove(A)`,
  `rename(A$, A)` for every `A$` with length > 1), then the marker is
  removed and `true` returned.  The `if (res) endTransaction();` retry in
  the source is dead code in this branch: `res` is only ever set in the
  no-marker branch and on `opendir` failure, so the marker branch always
  reaches the `else` that removes the marker.

`opendir("/spiffs")` is assumed to succeed (its failure branch touches no
file and only forces a recheck). -/

/-- One iteration of the staged-delete pass. -/
def bangStep (fs : Fs) (n : Name) : Fs :=
  if isStagedBang n then removeFs (removeFs fs n.dropLast) n else fs

/-- The staged-delete pass over a directory snapshot. -/
def bangPhase (fs : Fs) (ns : List Name) : Fs :=
  ns.foldl bangStep fs

/-- One iteration of the staged-rename pass: `remove(A)` then
`rename(A$, A)`. -/
def dollarStep (fs : Fs) (n : Name) : Fs :=
  if isStagedDollar n then renameFs (removeFs fs n.dropLast) n n.dropLast else fs

/-- The staged-rename pass over a directory snapshot. -/
def dollarPhase (fs : Fs) (ns : List Name) : Fs :=
  ns.foldl dollarStep fs

/-- One iteration of the no-marker cleanup pass: delete any entry ending in
`'$'` or `'!'` and set the modified flag. -/
def cleanStep (st : Fs × Bool) (n : Name) : Fs × Bool :=
  if lastIs n '$' || lastIs n '!' then (removeFs st.1 n, true) else st

/-- The no-marker cleanup pass. -/
def cleanPhase (st : Fs × Bool) (ns : List Name) : Fs × Bool :=
  ns.foldl cleanStep st

/-- `CSpiffsSystem::endTransaction`: returns the updated root directory and
the "filesystem was modified, recheck recommended" flag. -/
def endTransaction (fs : Fs) : Fs × Bool :=
  if memFs fs markerName then
    (removeFs (dollarPhase (bangPhase fs (keysFs fs))
        (keysFs (bangPhase fs (keysFs fs)))) markerName, true)
  else
    cleanPhase (fs, false) (keysFs fs)

/-! ## Characterizing the three passes -/

/-- `n` is deleted by the staged-delete pass over snapshot `ns`. -/
def hitByBang (ns : List Name) (n : Name) : Bool :=
  ns.any fun m => isStagedBang m && (decide (m = n) || decide (m.dropLast = n))

theorem bangPhase_lookup (ns : List Name) (fs : Fs) (n : Name) :
    lookupFs (bangPhase fs ns) n =
      if hitByBang ns n then none else lookupFs fs n := by
  induction ns generalizing fs with
  | nil => simp [bangPhase, hitByBang]
  | cons m ns ih =>
    show lookupFs (bangPhase (bangStep fs m) ns) n = _
    rw [ih]
    have hcons : hitByBang (m :: ns) n =
        ((isStagedBang m && (decide (m = n) || decide (m.dropLast = n))) || hitByBang ns n) := by
      simp [hitByBang]
    rw [hcons]
    by_cases htail : hitByBang ns n = true
    · simp [htail]
    · simp only [htail, Bool.or_false]
      by_cases hm : isStagedBang m = true
      · simp only [hm, Bool.true_and]
        unfold bangStep
        rw [if_pos hm, lookupFs_removeFs, lookupFs_removeFs]
        by_cases h1 : n = m
        · simp [h1]
        · have h1' : ¬ m = n := fun h => h1 h.symm
          by_cases h2 : n = m.dropLast
          · simp [h1, h2, h1']
          · have h2' : ¬ m.dropLast = n := fun h => h2 h.symm
            simp [h1, h2, h1', h2']
      · unfold bangStep
        simp [hm]

theorem cleanPhase_fst_lookup (ns : List Name) (st : Fs × Bool) (n : Name) :
    lookupFs (cleanPhase st ns).1 n =
      if ns.any (fun m => (lastIs m '$' || lastIs m '!') && decide (m = n)) then none
      else lookupFs st.1 n := by
  induction ns generalizing st with
  | nil => simp [cleanPhase]
  | cons m ns ih =>
    show lookupFs (cleanPhase (cleanStep st m) ns).1 n = _
    rw [ih]
    by_cases hm : (lastIs m '$' || lastIs m '!') = true
    · by_cases htail :
        (ns.any fun m => (lastIs m '$' || lastIs m '!') && decide (m = n)) = true
      · simp [htail, hm]
      · simp only [List.any_cons, htail, Bool.or_false, hm, Bool.true_and]
        unfold cleanStep
        rw [if_pos hm, lookupFs_removeFs]
        by_cases h1 : n = m
        · simp [h1]
        · have h1' : ¬ m = n := fun h => h1 h.symm
          simp [h1, h1']
    · unfold cleanStep
      simp [hm, Bool.false_and]

theorem cleanPhase_snd (ns : List Name) (st : Fs × Bool) :
    (cleanPhase st ns).2 =
      (st.2 || ns.any fun m => lastIs m '$' || lastIs m '!') := by
  induction ns generalizing st with
  | nil => simp [cleanPhase]
  | cons m ns ih =>
    show (cleanPhase (cleanStep st m) ns).2 = _
    rw [ih]
    unfold cleanStep
    by_cases hm : (lastIs m '$' || lastIs m '!') = true
    · simp [hm]
    · simp [hm, Bool.or_assoc]

theorem isStagedDollar_last {n : Name} (h : isStagedDollar n = true) :
    lastIs n '$' = true := by
  simp only [isStagedDollar, Bool.and_eq_true] at h
  exact h.2

theorem isStagedDollar_len {n : Name} (h : isStagedDollar n = true) :
    1 < n.length := by
  simp only [isStagedDollar, Bool.and_eq_true, decide_eq_true_eq] at h
  exact h.1

theorem isStagedBang_last {n : Name} (h : isStagedBang n = true) :
    lastIs n '!' = true := by
  simp only [isStagedBang, Bool.and_eq_true] at h
  exact h.2

theorem isStagedBang_len {n : Name} (h : isStagedBang n = true) :
    1 < n.length := by
  simp only [isStagedBang, Bool.and_eq_true, decide_eq_true_eq] at h
  exact h.1

theorem dollarStep_lookup (fs : Fs) (m : Name) (hm : isStagedDollar m = true)
    (hb : plainB m.dropLast = true) (x : Name) :
    lookupFs (dollarStep fs m) x =
      if x = m.dropLast then lookupFs fs m
      else if x = m then none else lookupFs fs x := by
  have hm2 : lastIs m '$' = true := isStagedDollar_last hm
  have hbm : m.dropLast ≠ m := by
    intro he
    have h1 := plainB_not_dollar hb
    rw [he, hm2] at h1
    simp at h1
  have hrm : lookupFs (removeFs fs m.dropLast) m = lookupFs fs m := by
    rw [lookupFs_removeFs, if_neg (fun h : m = m.dropLast => hbm h.symm)]
  unfold dollarStep
  rw [if_pos hm, lookupFs_renameFs, hrm]
  cases hlm : lookupFs fs m with
  | none =>
    simp only [lookupFs_removeFs]
    by_cases hxb : x = m.dropLast
    · simp [hxb, hlm]
    · by_cases hxm : x = m <;> simp [hxb, hxm, hlm]
  | some c =>
    simp only [lookupFs_removeFs]
    by_cases hxb : x = m.dropLast
    · simp [hxb, hlm, fun h : m.dropLast = m => hbm h]
    · by_cases hxm : x = m <;> simp [hxb, hxm, hlm]

/-- `n` is removed outright by the staged-rename pass (it is itself a staged
rename source in the snapshot). -/
def killedByDollar (ns : List Name) (n : Name) : Bool :=
  ns.any fun m => isStagedDollar m && decide (m = n)

/-- `n` receives the content of `n ++ "$"` from the staged-rename pass. -/
def renamedByDollar (ns : List Name) (n : Name) : Bool :=
  ns.any fun m => isStagedDollar m && decide (m = n ++ ['$'])

theorem dollarPhase_lookup (ns : List Name) (fs : Fs) (n : Name)
    (hnd : ns.Nodup)
    (hpl : ∀ m ∈ ns, isStagedDollar m = true → plainB m.dropLast = true) :
    lookupFs (dollarPhase fs ns) n =
      if killedByDollar ns n then none
      else if renamedByDollar ns n then lookupFs fs (n ++ ['$'])
      else lookupFs fs n := by
  induction ns generalizing fs with
  | nil => simp [dollarPhase, killedByDollar, renamedByDollar]
  | cons m ns ih =>
    obtain ⟨hmem, hnd'⟩ := List.nodup_cons.mp hnd
    have hpl' : ∀ m' ∈ ns, isStagedDollar m' = true → plainB m'.dropLast = true :=
      fun m' hm' => hpl m' (List.mem_cons_of_mem _ hm')
    show lookupFs (dollarPhase (dollarStep fs m) ns) n = _
    rw [ih (dollarStep fs m) hnd' hpl']
    have hkcons : killedByDollar (m :: ns) n =
        ((isStagedDollar m && decide (m = n)) || killedByDollar ns n) := by
      simp [killedByDollar]
    have hrcons : renamedByDollar (m :: ns) n =
        ((isStagedDollar m && decide (m = n ++ ['$'])) || renamedByDollar ns n) := by
      simp [renamedByDollar]
    rw [hkcons, hrcons]
    by_cases hm : isStagedDollar m = true
    case neg =>
      have hstep : dollarStep fs m = fs := by unfold dollarStep; rw [if_neg hm]
      rw [hstep]
      simp [hm]
    case pos =>
    have hb : plainB m.dropLast = true := hpl m (List.mem_cons_self _ _) hm
    have hm2 : lastIs m '$' = true := isStagedDollar_last hm
    have hrec : m = m.dropLast ++ ['$'] := reconstruct_of_lastIs hm2
    have hstep := dollarStep_lookup fs m hm hb
    by_cases hA : m = n
    · -- n is the staged source processed by the head step
      have hkill : killedByDollar ns n = false := by
        rw [Bool.eq_false_iff]
        intro h
        simp only [killedByDollar, List.any_eq_true, Bool.and_eq_true,
          decide_eq_true_eq] at h
        obtain ⟨m', hm'mem, _, hm'⟩ := h
        exact hmem (hA ▸ hm' ▸ hm'mem)
      have hren : renamedByDollar ns n = false := by
        rw [Bool.eq_false_iff]
        intro h
        simp only [renamedByDollar, List.any_eq_true, Bool.and_eq_true,
          decide_eq_true_eq] at h
        obtain ⟨m', hm'mem, hm's, hm'⟩ := h
        have hbase : plainB m'.dropLast = true := hpl' m' hm'mem hm's
        rw [hm', ← hA] at hbase
        rw [List.dropLast_concat] at hbase
        have h2 := plainB_not_dollar hbase
        rw [hm2] at h2
        simp at h2
      have hnb : n ≠ m.dropLast := by
        intro he
        have h2 := plainB_not_dollar hb
        rw [← he, ← hA, hm2] at h2
        simp at h2
      have hd : decide (m = n) = true := decide_eq_true hA
      have hL : lookupFs (dollarStep fs m) n = none := by
        rw [hstep n, if_neg hnb, if_pos hA.symm]
      rw [hkill, hren]
      simp [hm, hd, hL]
    · by_cases hB : n = m.dropLast
      · -- n is the rename target of the head step
        have hkill : killedByDollar ns n = false := by
          rw [Bool.eq_false_iff]
          intro h
          simp only [killedByDollar, List.any_eq_true, Bool.and_eq_true,
            decide_eq_true_eq] at h
          obtain ⟨m', hm'mem, hm's, hm'⟩ := h
          have h3 : lastIs m' '$' = true := isStagedDollar_last hm's
          rw [hm', hB] at h3
          have h2 := plainB_not_dollar hb
          rw [h3] at h2
          simp at h2
        have hren : renamedByDollar ns n = false := by
          rw [Bool.eq_false_iff]
          intro h
          simp only [renamedByDollar, List.any_eq_true, Bool.and_eq_true,
            decide_eq_true_eq] at h
          obtain ⟨m', hm'mem, _, hm'⟩ := h
          have hmm : m' = m := by rw [hm', hB, ← hrec]
          exact hmem (hmm ▸ hm'mem)
        have hhead : m = n ++ ['$'] := by rw [hB, ← hrec]
        have hd1 : decide (m = n) = false := decide_eq_false hA
        have hd2 : decide (m = n ++ ['$']) = true := decide_eq_true hhead
        have hL : lookupFs (dollarStep fs m) n = lookupFs fs m := by
          rw [hstep n, if_pos hB]
        rw [hkill, hren]
        simp only [hm, Bool.true_and, hd1, hd2, Bool.false_or, Bool.true_or,
          Bool.or_false, if_true, if_false, hL]
        rw [← hhead]
        simp
      · -- n is untouched by the head step
        have hmd : ¬ m = n ++ ['$'] := by
          intro h
          apply hB
          rw [h, List.dropLast_concat]
        have e1 : lookupFs (dollarStep fs m) n = lookupFs fs n := by
          rw [hstep n, if_neg hB, if_neg (fun h : n = m => hA h.symm)]
        have e2 : lookupFs (dollarStep fs m) (n ++ ['$']) = lookupFs fs (n ++ ['$']) := by
          rw [hstep (n ++ ['$'])]
          have c1 : n ++ ['$'] ≠ m.dropLast :=
            fun h => absurd h.symm (plain_ne_dollar_concat hb)
          have c2 : n ++ ['$'] ≠ m := fun h => hmd h.symm
          rw [if_neg c1, if_neg c2]
        have hd1 : decide (m = n) = false := decide_eq_false hA
        have hd2 : decide (m = n ++ ['$']) = false := decide_eq_false hmd
        rw [e1, e2, hd1, hd2]
        simp

/-! ## Well-formed directories

`goodKey` captures the naming discipline the transaction protocol is designed
for: nonempty entry names, where any reserved-suffix entry is either the
global marker itself or a staged file of length at least two whose base name
is itself plain.  `disjStaged` states that no name is simultaneously staged
for rename and for delete (which is how `clearDir` produces staging sets: it
never creates `A!` when `A$` exists). -/

/-- A directory entry name compatible with the staging discipline. -/
def goodKey (k : Name) : Bool :=
  decide (k ≠ []) &&
    (if lastIs k '$' || lastIs k '!' then
       decide (k = markerName) || (decide (1 < k.length) && plainB k.dropLast)
     else true)

/-- Well-formed directory: distinct entry names, all satisfying `goodKey`. -/
def wfFs (fs : Fs) : Prop :=
  (keysFs fs).Nodup ∧ ∀ k ∈ keysFs fs, goodKey k = true

/-- No base name is staged both for rename and for delete. -/
def disjStaged (fs : Fs) : Prop :=
  ∀ k ∈ keysFs fs, lastIs k '$' = true → memFs fs (k.dropLast ++ ['!']) = false

theorem goodKey_ne_nil {k : Name} (h : goodKey k = true) : k ≠ [] := by
  unfold goodKey at h
  simp only [Bool.and_eq_true, decide_eq_true_eq] at h
  exact h.1

theorem goodKey_dollar_base {k : Name} (hg : goodKey k = true)
    (hk : isStagedDollar k = true) : plainB k.dropLast = true := by
  have hlast := isStagedDollar_last hk
  have hlen := isStagedDollar_len hk
  unfold goodKey at hg
  rw [hlast] at hg
  simp only [Bool.true_or, if_true, Bool.and_eq_true, Bool.or_eq_true,
    decide_eq_true_eq] at hg
  rcases hg.2 with h | h
  · rw [h] at hlen
    simp [markerName] at hlen
  · exact h.2

theorem goodKey_bang_base {k : Name} (hg : goodKey k = true)
    (hk : isStagedBang k = true) : plainB k.dropLast = true := by
  have hlast := isStagedBang_last hk
  have hlen := isStagedBang_len hk
  unfold goodKey at hg
  rw [hlast] at hg
  simp only [Bool.or_true, if_true, Bool.and_eq_true, Bool.or_eq_true,
    decide_eq_true_eq] at hg
  rcases hg.2 with h | h
  · rw [h] at hlast
    simp [markerName, lastIs] at hlast
  · exact h.2

/-- In a well-formed directory, a name with a bad shape cannot be bound. -/
theorem lookup_none_of_bad {fs : Fs} (hgood : ∀ k ∈ keysFs fs, goodKey k = true)
    {n : Name} (h : goodKey n = false) : lookupFs fs n = none := by
  cases hl : lookupFs fs n with
  | none => rfl
  | some c =>
    have : n ∈ keysFs fs := mem_keysFs_of_lookup (by rw [hl]; rfl)
    rw [hgood n this] at h
    simp at h

theorem isStagedDollar_concat {n : Name} (h : n ≠ []) :
    isStagedDollar (n ++ ['$']) = true := by
  unfold isStagedDollar
  rw [lastIs_concat]
  have h1 : 0 < n.length := List.length_pos.mpr h
  have h2 : 1 < (n ++ ['$']).length := by
    simp only [List.length_append, List.length_cons, List.length_nil]
    omega
  simp [h2, h1]

theorem isStagedBang_concat {n : Name} (h : n ≠ []) :
    isStagedBang (n ++ ['!']) = true := by
  unfold isStagedBang
  rw [lastIs_concat]
  have h1 : 0 < n.length := List.length_pos.mpr h
  have h2 : 1 < (n ++ ['!']).length := by
    simp only [List.length_append, List.length_cons, List.length_nil]
    omega
  simp [h2, h1]

theorem dollar_not_staged_eq_marker {n : Name} (h : lastIs n '$' = true)
    (h2 : isStagedDollar n = false) : n = markerName := by
  have hrec := reconstruct_of_lastIs h
  unfold isStagedDollar at h2
  rw [h] at h2
  simp only [Bool.and_true, decide_eq_false_iff_not, Nat.not_lt] at h2
  have hne : n ≠ [] := by
    intro he; rw [he] at h; simp [lastIs] at h
  have h1 : 1 ≤ n.length := List.length_pos.mpr hne
  have hlen : n.length = 1 := Nat.le_antisymm h2 h1
  have hd : n.dropLast = [] := by
    have := List.length_dropLast n
    rw [hlen] at this
    exact List.length_eq_zero.mp this
  rw [hrec, hd]
  rfl

/-- Reserved-suffix names never collide across suffixes. -/
theorem concat_ne_of_char {x y : Name} {c d : Char} (h : c ≠ d) :
    x ++ [c] ≠ y ++ [d] := by
  intro he
  have := List.getLast?_concat (l := x) (a := c)
  rw [he, List.getLast?_concat] at this
  exact h (Option.some_inj.mp this).symm

theorem concat_inj {x y : Name} {c : Char} (h : x ++ [c] = y ++ [c]) : x = y := by
  have h1 : (x ++ [c]).dropLast = (y ++ [c]).dropLast := by rw [h]
  rwa [List.dropLast_concat, List.dropLast_concat] at h1

/-! ## The recovery characterization

`recoverySpec fs` is the extensional description of the state
`endTransaction` leaves behind when the global marker is present in `fs`:
the marker and every staged name are gone, every base name staged for rename
carries the staged content, every base name staged only for delete is gone,
and everything else is untouched. -/

def recoverySpec (fs : Fs) (n : Name) : Option Content :=
  if n = markerName then none
  else if isStagedBang n || isStagedDollar n then none
  else if n = [] then none
  else if memFs fs (n ++ ['$']) then lookupFs fs (n ++ ['$'])
  else if memFs fs (n ++ ['!']) then none
  else lookupFs fs n

theorem lastIs_unique {n : Name} {c d : Char} (h1 : lastIs n c = true)
    (h2 : lastIs n d = true) : c = d := by
  unfold lastIs at h1 h2
  have e1 : n.getLast? = some c := by simpa using h1
  have e2 : n.getLast? = some d := by simpa using h2
  rw [e1] at e2
  exact Option.some_inj.mp e2

theorem hitByBang_iff (ns : List Name) (x : Name) :
    hitByBang ns x = true ↔
      ∃ m ∈ ns, isStagedBang m = true ∧ (m = x ∨ m.dropLast = x) := by
  simp [hitByBang, List.any_eq_true, Bool.and_eq_true, decide_eq_true_eq]

theorem killedByDollar_iff (ns : List Name) (x : Name) :
    killedByDollar ns x = true ↔
      ∃ m ∈ ns, isStagedDollar m = true ∧ m = x := by
  simp [killedByDollar, List.any_eq_true, Bool.and_eq_true, decide_eq_true_eq]

theorem renamedByDollar_iff (ns : List Name) (x : Name) :
    renamedByDollar ns x = true ↔
      ∃ m ∈ ns, isStagedDollar m = true ∧ m = x ++ ['$'] := by
  simp [renamedByDollar, List.any_eq_true, Bool.and_eq_true, decide_eq_true_eq]

theorem bangPhase_keys_sublist (ns : List Name) (fs : Fs) :
    (keysFs (bangPhase fs ns)).Sublist (keysFs fs) := by
  induction ns generalizing fs with
  | nil => exact List.Sublist.refl _
  | cons m ns ih =>
    show (keysFs (bangPhase (bangStep fs m) ns)).Sublist _
    refine (ih (bangStep fs m)).trans ?_
    unfold bangStep
    by_cases hm : isStagedBang m = true
    · rw [if_pos hm]
      exact (keysFs_removeFs_sublist _ _).trans (keysFs_removeFs_sublist _ _)
    · rw [if_neg hm]

/-- The state `endTransaction` computes in the marker-present branch, looked
up extensionally, is exactly `recoverySpec`. -/
theorem recovery_lookup (fs : Fs) (hwf : wfFs fs)
    (hm : memFs fs markerName = true) (n : Name) :
    lookupFs (endTransaction fs).1 n = recoverySpec fs n := by
  obtain ⟨hnd, hgood⟩ := hwf
  have hET : (endTransaction fs).1 =
      removeFs (dollarPhase (bangPhase fs (keysFs fs))
        (keysFs (bangPhase fs (keysFs fs)))) markerName := by
    unfold endTransaction
    rw [if_pos hm]
  have hlook1 : ∀ x, lookupFs (bangPhase fs (keysFs fs)) x =
      if hitByBang (keysFs fs) x then none else lookupFs fs x :=
    fun x => bangPhase_lookup (keysFs fs) fs x
  have hnd1 : (keysFs (bangPhase fs (keysFs fs))).Nodup :=
    hnd.sublist (bangPhase_keys_sublist (keysFs fs) fs)
  have hmem1 : ∀ m, m ∈ keysFs (bangPhase fs (keysFs fs)) → m ∈ keysFs fs := by
    intro m hm1
    exact (bangPhase_keys_sublist (keysFs fs) fs).mem hm1
  have hpl1 : ∀ m ∈ keysFs (bangPhase fs (keysFs fs)),
      isStagedDollar m = true → plainB m.dropLast = true := by
    intro m hm1 hms
    exact goodKey_dollar_base (hgood m (hmem1 m hm1)) hms
  have hlook2 : ∀ x, lookupFs (dollarPhase (bangPhase fs (keysFs fs))
      (keysFs (bangPhase fs (keysFs fs)))) x =
      if killedByDollar (keysFs (bangPhase fs (keysFs fs))) x then none
      else if renamedByDollar (keysFs (bangPhase fs (keysFs fs))) x then
        lookupFs (bangPhase fs (keysFs fs)) (x ++ ['$'])
      else lookupFs (bangPhase fs (keysFs fs)) x :=
    fun x => dollarPhase_lookup _ _ x hnd1 hpl1
  rw [hET, lookupFs_removeFs]
  by_cases hmk : n = markerName
  · simp [recoverySpec, hmk]
  rw [if_neg hmk, hlook2 n]
  by_cases hB : isStagedBang n = true
  · -- a staged-delete name: erased, and never recreated
    have hkill : killedByDollar (keysFs (bangPhase fs (keysFs fs))) n = false := by
      rw [Bool.eq_false_iff]
      intro h
      obtain ⟨m, _, hms, hmx⟩ := (killedByDollar_iff _ _).mp h
      have h1 := isStagedDollar_last hms
      rw [hmx] at h1
      have := lastIs_unique h1 (isStagedBang_last hB)
      simp at this
    have hren : renamedByDollar (keysFs (bangPhase fs (keysFs fs))) n = false := by
      rw [Bool.eq_false_iff]
      intro h
      obtain ⟨m, hmm, hms, hmx⟩ := (renamedByDollar_iff _ _).mp h
      have hbase := hpl1 m hmm hms
      rw [hmx, List.dropLast_concat] at hbase
      have := plainB_not_bang hbase
      rw [isStagedBang_last hB] at this
      simp at this
    have hnone : lookupFs (bangPhase fs (keysFs fs)) n = none := by
      rw [hlook1 n]
      by_cases hh : hitByBang (keysFs fs) n = true
      · rw [if_pos hh]
      · rw [if_neg hh]
        cases hc : lookupFs fs n with
        | none => rfl
        | some c =>
          exfalso
          apply hh
          refine (hitByBang_iff _ _).mpr ⟨n, ?_, hB, Or.inl rfl⟩
          exact mem_keysFs_of_lookup (by rw [hc]; rfl)
    rw [hkill, hren, hnone]
    simp [recoverySpec, hmk, hB]
  by_cases hD : isStagedDollar n = true
  · -- a staged-rename source: consumed by the rename pass
    have hren : renamedByDollar (keysFs (bangPhase fs (keysFs fs))) n = false := by
      rw [Bool.eq_false_iff]
      intro h
      obtain ⟨m, hmm, hms, hmx⟩ := (renamedByDollar_iff _ _).mp h
      have hbase := hpl1 m hmm hms
      rw [hmx, List.dropLast_concat] at hbase
      have := plainB_not_dollar hbase
      rw [isStagedDollar_last hD] at this
      simp at this
    by_cases hk : killedByDollar (keysFs (bangPhase fs (keysFs fs))) n = true
    · rw [hk]
      simp [recoverySpec, hmk, hD]
    · have hnone : lookupFs (bangPhase fs (keysFs fs)) n = none := by
        cases hc : lookupFs (bangPhase fs (keysFs fs)) n with
        | none => rfl
        | some c =>
          exfalso
          apply hk
          refine (killedByDollar_iff _ _).mpr ⟨n, ?_, hD, rfl⟩
          exact mem_keysFs_of_lookup (by rw [hc]; rfl)
      rw [if_neg hk, hren, hnone]
      simp [recoverySpec, hmk, hD]
  -- n is neither the marker nor staged
  by_cases hnil : n = []
  · -- the empty name is never bound in a well-formed directory
    have hkill : killedByDollar (keysFs (bangPhase fs (keysFs fs))) n = false := by
      rw [Bool.eq_false_iff]
      intro h
      obtain ⟨m, _, hms, hmx⟩ := (killedByDollar_iff _ _).mp h
      have := isStagedDollar_len hms
      rw [hmx, hnil] at this
      simp at this
    have hren : renamedByDollar (keysFs (bangPhase fs (keysFs fs))) n = false := by
      rw [Bool.eq_false_iff]
      intro h
      obtain ⟨m, _, hms, hmx⟩ := (renamedByDollar_iff _ _).mp h
      have := isStagedDollar_len hms
      rw [hmx, hnil] at this
      simp at this
    have hhit : hitByBang (keysFs fs) n = false := by
      rw [Bool.eq_false_iff]
      intro h
      obtain ⟨m, _, hms, hmx⟩ := (hitByBang_iff _ _).mp h
      have hlen := isStagedBang_len hms
      rcases hmx with h1 | h1
      · rw [h1, hnil] at hlen
        simp at hlen
      · have := List.length_dropLast m
        rw [h1, hnil] at this
        simp at this
        omega
    have hbadnil : goodKey n = false := by
      rw [hnil]
      simp [goodKey]
    rw [hkill, hren, hlook1 n, hhit]
    rw [lookup_none_of_bad hgood hbadnil]
    simp [recoverySpec, hmk, hB, hD, hnil]
  · -- ordinary name: spec branches on staged companions
    have hd : lastIs n '$' = false := by
      rw [Bool.eq_false_iff]
      intro h
      exact hmk (dollar_not_staged_eq_marker h (Bool.eq_false_iff.mpr hD))
    have hkill : killedByDollar (keysFs (bangPhase fs (keysFs fs))) n = false := by
      rw [Bool.eq_false_iff]
      intro h
      obtain ⟨m, _, hms, hmx⟩ := (killedByDollar_iff _ _).mp h
      have h1 := isStagedDollar_last hms
      rw [hmx, hd] at h1
      simp at h1
    have hnhit : hitByBang (keysFs fs) (n ++ ['$']) = false := by
      rw [Bool.eq_false_iff]
      intro h
      obtain ⟨m, hmm, hms, hmx⟩ := (hitByBang_iff _ _).mp h
      rcases hmx with h1 | h1
      · have h2 := isStagedBang_last hms
        rw [h1, lastIs_concat] at h2
        simp at h2
      · have hbase := goodKey_bang_base (hgood m hmm) hms
        rw [h1] at hbase
        have := plainB_not_dollar hbase
        rw [lastIs_concat] at this
        simp at this
    have hlkd : lookupFs (bangPhase fs (keysFs fs)) (n ++ ['$']) =
        lookupFs fs (n ++ ['$']) := by
      rw [hlook1, hnhit]
      rfl
    have hrenc : renamedByDollar (keysFs (bangPhase fs (keysFs fs))) n =
        memFs fs (n ++ ['$']) := by
      by_cases hmm : memFs fs (n ++ ['$']) = true
      · rw [hmm]
        refine (renamedByDollar_iff _ _).mpr ⟨n ++ ['$'], ?_, isStagedDollar_concat hnil, rfl⟩
        apply mem_keysFs_of_lookup
        rw [hlkd]
        exact hmm
      · rw [Bool.eq_false_iff.mpr hmm]
        rw [Bool.eq_false_iff]
        intro h
        obtain ⟨m, hmme, _, hmx⟩ := (renamedByDollar_iff _ _).mp h
        apply hmm
        have h1 : (lookupFs (bangPhase fs (keysFs fs)) (n ++ ['$'])).isSome := by
          rw [← hmx] at hlkd ⊢
          exact lookup_isSome_of_mem_keysFs hmme
        rw [hlkd] at h1
        exact h1
    have hhitn : hitByBang (keysFs fs) n = memFs fs (n ++ ['!']) := by
      by_cases hmm : memFs fs (n ++ ['!']) = true
      · rw [hmm]
        refine (hitByBang_iff _ _).mpr ⟨n ++ ['!'], ?_, isStagedBang_concat hnil, Or.inr (List.dropLast_concat)⟩
        exact mem_keysFs_of_lookup hmm
      · rw [Bool.eq_false_iff.mpr hmm]
        rw [Bool.eq_false_iff]
        intro h
        obtain ⟨m, hmme, hms, hmx⟩ := (hitByBang_iff _ _).mp h
        rcases hmx with h1 | h1
        · rw [h1] at hms
          exact hB hms
        · apply hmm
          have hm2 : m = n ++ ['!'] := by
            have := reconstruct_of_lastIs (isStagedBang_last hms)
            rw [h1] at this
            exact this
          rw [← hm2]
          exact lookup_isSome_of_mem_keysFs hmme
    rw [hkill, hrenc, hlkd]
    by_cases hms : memFs fs (n ++ ['$']) = true
    · rw [hms]
      simp [recoverySpec, hmk, hB, hD, hnil, hms]
    · rw [Bool.eq_false_iff.mpr hms, hlook1 n, hhitn]
      by_cases hmb : memFs fs (n ++ ['!']) = true
      · rw [hmb]
        simp [recoverySpec, hmk, hB, hD, hnil, hms, hmb]
      · rw [Bool.eq_false_iff.mpr hmb]
        simp [recoverySpec, hmk, hB, hD, hnil, hms, hmb]

theorem bang_not_staged_eq {n : Name} (h : lastIs n '!' = true)
    (h2 : isStagedBang n = false) : n = ['!'] := by
  have hrec := reconstruct_of_lastIs h
  unfold isStagedBang at h2
  rw [h] at h2
  simp only [Bool.and_true, decide_eq_false_iff_not, Nat.not_lt] at h2
  have hne : n ≠ [] := by
    intro he; rw [he] at h; simp [lastIs] at h
  have h1 : 1 ≤ n.length := List.length_pos.mpr hne
  have hlen : n.length = 1 := Nat.le_antisymm h2 h1
  have hd : n.dropLast = [] := by
    have := List.length_dropLast n
    rw [hlen] at this
    exact List.length_eq_zero.mp this
  rw [hrec, hd]
  rfl

theorem endTransaction_of_marker {fs : Fs} (h : memFs fs markerName = true) :
    endTransaction fs =
      (removeFs (dollarPhase (bangPhase fs (keysFs fs))
        (keysFs (bangPhase fs (keysFs fs)))) markerName, true) := by
  unfold endTransaction
  rw [if_pos h]

theorem endTransaction_of_nomarker {fs : Fs} (h : memFs fs markerName = false) :
    endTransaction fs = cleanPhase (fs, false) (keysFs fs) := by
  unfold endTransaction
  rw [if_neg (Bool.eq_false_iff.mp h)]

/-! ## Return value and idempotence of `endTransaction`

The return flag of `endTransaction` is `true` exactly when the call changed
the directory (opening the root is assumed to succeed; its failure branch
returns `true` without touching anything). -/

theorem endTransaction_modified_iff (fs : Fs) :
    (endTransaction fs).2 = true ↔
      ∃ n, lookupFs (endTransaction fs).1 n ≠ lookupFs fs n := by
  by_cases hm : memFs fs markerName = true
  · rw [endTransaction_of_marker hm]
    constructor
    · intro _
      refine ⟨markerName, ?_⟩
      rw [lookupFs_removeFs, if_pos rfl]
      unfold memFs at hm
      intro he
      rw [← he] at hm
      simp at hm
    · intro _
      rfl
  · have hm' : memFs fs markerName = false := Bool.eq_false_iff.mpr hm
    rw [endTransaction_of_nomarker hm', cleanPhase_snd]
    simp only [Bool.false_or]
    by_cases ha : ((keysFs fs).any fun m => lastIs m '$' || lastIs m '!') = true
    · rw [ha]
      constructor
      · intro _
        obtain ⟨m, hmm, hsuf⟩ := List.any_eq_true.mp ha
        refine ⟨m, ?_⟩
        rw [cleanPhase_fst_lookup]
        have hcond : ((keysFs fs).any fun x =>
            (lastIs x '$' || lastIs x '!') && decide (x = m)) = true :=
          List.any_eq_true.mpr ⟨m, hmm, by simp [hsuf]⟩
        rw [hcond]
        have hsome := lookup_isSome_of_mem_keysFs hmm
        intro he
        rw [← he] at hsome
        simp at hsome
      · intro _
        rfl
    · rw [Bool.eq_false_iff.mpr ha]
      constructor
      · intro h
        simp at h
      · rintro ⟨n, hn⟩
        exfalso
        apply hn
        rw [cleanPhase_fst_lookup]
        have hcond : ((keysFs fs).any fun x =>
            (lastIs x '$' || lastIs x '!') && decide (x = n)) = false := by
          rw [Bool.eq_false_iff]
          intro h2
          apply ha
          obtain ⟨m, hmm, hy⟩ := List.any_eq_true.mp h2
          rw [Bool.and_eq_true] at hy
          exact List.any_eq_true.mpr ⟨m, hmm, hy.1⟩
        rw [hcond]
        simp

/-- After any `endTransaction`, a well-formed directory has neither marker
nor reserved-suffix entries, so a second run reports "no changes". -/
theorem endTransaction_idem (fs : Fs) (hwf : wfFs fs) :
    (endTransaction (endTransaction fs).1).2 = false := by
  obtain ⟨hnd, hgood⟩ := hwf
  by_cases hm : memFs fs markerName = true
  · have hspec := recovery_lookup fs ⟨hnd, hgood⟩ hm
    have hnomark : memFs (endTransaction fs).1 markerName = false := by
      unfold memFs
      rw [hspec markerName]
      rfl
    have hnosuf : ((keysFs (endTransaction fs).1).any
        fun m => lastIs m '$' || lastIs m '!') = false := by
      rw [Bool.eq_false_iff]
      intro h
      obtain ⟨m, hmm, hsuf⟩ := List.any_eq_true.mp h
      have hsome := lookup_isSome_of_mem_keysFs hmm
      rw [hspec m] at hsome
      unfold recoverySpec at hsome
      by_cases h1 : m = markerName
      · rw [if_pos h1] at hsome
        simp at hsome
      rw [if_neg h1] at hsome
      by_cases h2 : (isStagedBang m || isStagedDollar m) = true
      · rw [if_pos h2] at hsome
        simp at hsome
      rw [if_neg h2] at hsome
      by_cases h3 : m = []
      · rw [if_pos h3] at hsome
        simp at hsome
      rw [if_neg h3] at hsome
      have h2' : isStagedBang m = false ∧ isStagedDollar m = false := by
        constructor
        · rw [Bool.eq_false_iff]
          intro hb
          exact h2 (by rw [Bool.or_eq_true]; exact Or.inl hb)
        · rw [Bool.eq_false_iff]
          intro hb
          exact h2 (by rw [Bool.or_eq_true]; exact Or.inr hb)
      have hm1 : m = ['!'] := by
        rw [Bool.or_eq_true] at hsuf
        rcases hsuf with hsufd | hsufb
        · exact absurd (dollar_not_staged_eq_marker hsufd h2'.2) h1
        · exact bang_not_staged_eq hsufb h2'.1
      subst hm1
      have e1 : memFs fs (['!'] ++ ['$']) = false := by
        unfold memFs
        rw [lookup_none_of_bad hgood (by decide)]
        rfl
      have e2 : memFs fs (['!'] ++ ['!']) = false := by
        unfold memFs
        rw [lookup_none_of_bad hgood (by decide)]
        rfl
      have e3 : lookupFs fs ['!'] = none :=
        lookup_none_of_bad hgood (by decide)
      rw [if_neg (Bool.eq_false_iff.mp e1), if_neg (Bool.eq_false_iff.mp e2), e3]
        at hsome
      simp at hsome
    rw [endTransaction_of_nomarker hnomark, cleanPhase_snd, hnosuf]
    rfl
  · have hm' : memFs fs markerName = false := Bool.eq_false_iff.mpr hm
    have hfsnone : lookupFs fs markerName = none := by
      cases hc : lookupFs fs markerName with
      | none => rfl
      | some c =>
        exfalso
        apply hm
        unfold memFs
        rw [hc]
        rfl
    have hlk : ∀ x, lookupFs (endTransaction fs).1 x =
        if ((keysFs fs).any fun m => (lastIs m '$' || lastIs m '!') && decide (m = x))
        then none else lookupFs fs x := by
      intro x
      rw [endTransaction_of_nomarker hm']
      exact cleanPhase_fst_lookup (keysFs fs) (fs, false) x
    have hnomark : memFs (endTransaction fs).1 markerName = false := by
      unfold memFs
      rw [hlk markerName]
      by_cases hc : ((keysFs fs).any
          fun m => (lastIs m '$' || lastIs m '!') && decide (m = markerName)) = true
      · rw [hc]
        rfl
      · rw [if_neg hc, hfsnone]
        rfl
    have hnosuf : ((keysFs (endTransaction fs).1).any
        fun m => lastIs m '$' || lastIs m '!') = false := by
      rw [Bool.eq_false_iff]
      intro h
      obtain ⟨m, hmm, hsuf⟩ := List.any_eq_true.mp h
      have hsome := lookup_isSome_of_mem_keysFs hmm
      rw [hlk m] at hsome
      by_cases hc : ((keysFs fs).any
          fun x => (lastIs x '$' || lastIs x '!') && decide (x = m)) = true
      · rw [hc] at hsome
        simp at hsome
      · rw [if_neg hc] at hsome
        apply hc
        refine List.any_eq_true.mpr ⟨m, mem_keysFs_of_lookup hsome, ?_⟩
        simp [hsuf]
    rw [endTransaction_of_nomarker hnomark, cleanPhase_snd, hnosuf]
    rfl

/-! ## Crash states of an interrupted commit (claim C1)

The `trans:end` command creates the global marker (`fopen("/spiffs/$","w")`)
and immediately runs `endTransaction`, whose marker branch executes, in
program order, `remove(A); remove(A!)` for every staged-delete entry of the
first snapshot, then `remove(A); rename(A$, A)` for every staged-rename
entry of the second snapshot, and finally removes the marker.  A crash
strictly between marker creation and marker removal therefore leaves the
state reached after some number `k` of these primitive operations with the
marker still present; `crashFs` builds exactly these states. -/

inductive FsOp where
  | rm (n : Name)
  | mv (a b : Name)

def applyOp (fs : Fs) : FsOp → Fs
  | .rm n => removeFs fs n
  | .mv a b => renameFs fs a b

def applyOps (fs : Fs) (l : List FsOp) : Fs :=
  l.foldl applyOp fs

/-- One marker-branch iteration for a staged-delete entry `n = A!`:
`remove(A)` then `remove(A!)`. -/
def bangOpsOf (n : Name) : List FsOp := [.rm n.dropLast, .rm n]

/-- One marker-branch iteration for a staged-rename entry `n = A$`:
`remove(A)` then `rename(A$, A)`. -/
def dollarOpsOf (n : Name) : List FsOp := [.rm n.dropLast, .mv n n.dropLast]

inductive CommitPair where
  | bang (n : Name)
  | dollar (n : Name)

/-- The staged entry a pair processes. -/
def pairStaged : CommitPair → Name
  | .bang n => n
  | .dollar n => n

def pairShaped : CommitPair → Bool
  | .bang n => isStagedBang n
  | .dollar n => isStagedDollar n

def pairOps : CommitPair → List FsOp
  | .bang n => bangOpsOf n
  | .dollar n => dollarOpsOf n

/-- The iterations the marker branch performs on `fs`: staged-delete entries
of the first `readdir` snapshot, then staged-rename entries of the snapshot
taken after the delete pass. -/
def pairsOf (fs : Fs) : List CommitPair :=
  ((keysFs fs).filter isStagedBang).map CommitPair.bang
    ++ ((keysFs (bangPhase fs (keysFs fs))).filter isStagedDollar).map CommitPair.dollar

/-- Every primitive file operation between marker creation and marker
removal, in program order. -/
def commitOps (fs : Fs) : List FsOp :=
  (pairsOf fs).flatMap pairOps

/-- The state after the first `k` primitive commit operations on `fs`
(the marker is in `fs` and is not yet removed). -/
def crashFs (fs : Fs) (k : Nat) : Fs :=
  applyOps fs ((commitOps fs).take k)

/-- Recovery (`endTransaction`) applied to a crash interrupted `k` primitive
operations into the commit that `trans:end` starts on state `S`. -/
def commitCrashRecovered (S : Fs) (k : Nat) : Fs :=
  (endTransaction (crashFs (insertFs S markerName []) k)).1

/-! ### Absorption: each commit operation leaves `recoverySpec` unchanged -/

theorem goodKey_of_plain {b : Name} (h : plainB b = true) : goodKey b = true := by
  unfold goodKey
  rw [plainB_not_dollar h, plainB_not_bang h]
  simp [plainB_ne_nil h]

theorem plain_ne_marker {b : Name} (h : plainB b = true) : b ≠ markerName := by
  intro he
  have := plainB_not_dollar h
  rw [he] at this
  simp [lastIs, markerName] at this

theorem stagedDollar_ne_marker {n : Name} (h : isStagedDollar n = true) :
    n ≠ markerName := by
  intro he
  have := isStagedDollar_len h
  rw [he] at this
  simp [markerName] at this

theorem stagedBang_ne_marker {n : Name} (h : isStagedBang n = true) :
    n ≠ markerName := by
  intro he
  have := isStagedBang_last h
  rw [he] at this
  simp [markerName, lastIs] at this

/-- Removing the plain base of a still-present staged entry does not change
the recovered state. -/
theorem spec_remove_base {fs : Fs} {b : Name} (hb : plainB b = true)
    (hstaged : memFs fs (b ++ ['$']) = true ∨ memFs fs (b ++ ['!']) = true)
    (n : Name) :
    recoverySpec (removeFs fs b) n = recoverySpec fs n := by
  unfold recoverySpec
  by_cases h1 : n = markerName
  · rw [if_pos h1, if_pos h1]
  rw [if_neg h1, if_neg h1]
  by_cases h2 : (isStagedBang n || isStagedDollar n) = true
  · rw [if_pos h2, if_pos h2]
  rw [if_neg h2, if_neg h2]
  by_cases h3 : n = []
  · rw [if_pos h3, if_pos h3]
  rw [if_neg h3, if_neg h3]
  have ed : lookupFs (removeFs fs b) (n ++ ['$']) = lookupFs fs (n ++ ['$']) := by
    rw [lookupFs_removeFs, if_neg (fun h => (plain_ne_dollar_concat hb) h.symm)]
  have eb : lookupFs (removeFs fs b) (n ++ ['!']) = lookupFs fs (n ++ ['!']) := by
    rw [lookupFs_removeFs, if_neg (fun h => (plain_ne_bang_concat hb) h.symm)]
  have hmd : memFs (removeFs fs b) (n ++ ['$']) = memFs fs (n ++ ['$']) := by
    unfold memFs
    rw [ed]
  have hmb : memFs (removeFs fs b) (n ++ ['!']) = memFs fs (n ++ ['!']) := by
    unfold memFs
    rw [eb]
  rw [hmd, hmb, ed]
  by_cases h4 : memFs fs (n ++ ['$']) = true
  · rw [if_pos h4, if_pos h4]
  rw [if_neg h4, if_neg h4]
  by_cases h5 : memFs fs (n ++ ['!']) = true
  · rw [if_pos h5, if_pos h5]
  rw [if_neg h5, if_neg h5]
  have hnb : n ≠ b := by
    intro he
    subst he
    rcases hstaged with h | h
    · exact h4 h
    · exact h5 h
  rw [lookupFs_removeFs, if_neg hnb]

/-- Removing a staged-delete entry whose base is already gone does not change
the recovered state. -/
theorem spec_remove_bangfile {fs : Fs} {b : Name} (hb : plainB b = true)
    (hbase : lookupFs fs b = none) (n : Name) :
    recoverySpec (removeFs fs (b ++ ['!'])) n = recoverySpec fs n := by
  have hbne : b ≠ [] := plainB_ne_nil hb
  have hstg : isStagedBang (b ++ ['!']) = true := isStagedBang_concat hbne
  unfold recoverySpec
  by_cases h1 : n = markerName
  · rw [if_pos h1, if_pos h1]
  rw [if_neg h1, if_neg h1]
  by_cases h2 : (isStagedBang n || isStagedDollar n) = true
  · rw [if_pos h2, if_pos h2]
  rw [if_neg h2, if_neg h2]
  by_cases h3 : n = []
  · rw [if_pos h3, if_pos h3]
  rw [if_neg h3, if_neg h3]
  have ed : lookupFs (removeFs fs (b ++ ['!'])) (n ++ ['$']) = lookupFs fs (n ++ ['$']) := by
    rw [lookupFs_removeFs,
      if_neg (fun h : n ++ ['$'] = b ++ ['!'] => concat_ne_of_char (by decide) h)]
  have hmd : memFs (removeFs fs (b ++ ['!'])) (n ++ ['$']) = memFs fs (n ++ ['$']) := by
    unfold memFs
    rw [ed]
  have hnstg : n ≠ b ++ ['!'] := by
    intro he
    rw [he] at h2
    rw [hstg] at h2
    simp at h2
  rw [hmd, ed]
  by_cases h4 : memFs fs (n ++ ['$']) = true
  · rw [if_pos h4, if_pos h4]
  rw [if_neg h4, if_neg h4]
  by_cases hnb : n = b
  · -- the base of the removed staged-delete entry
    subst hnb
    have hrem : memFs (removeFs fs (n ++ ['!'])) (n ++ ['!']) = false := by
      unfold memFs
      rw [lookupFs_removeFs, if_pos rfl]
      rfl
    rw [hrem]
    rw [if_neg (by rw [Bool.eq_false_iff] at hrem; simp)]
    by_cases h5 : memFs fs (n ++ ['!']) = true
    · rw [if_pos h5, lookupFs_removeFs, if_neg hnstg, hbase]
    · rw [if_neg h5, lookupFs_removeFs, if_neg hnstg]
  · have eb : lookupFs (removeFs fs (b ++ ['!'])) (n ++ ['!']) = lookupFs fs (n ++ ['!']) := by
      rw [lookupFs_removeFs,
        if_neg (fun h : n ++ ['!'] = b ++ ['!'] => hnb (concat_inj h))]
    have hmb : memFs (removeFs fs (b ++ ['!'])) (n ++ ['!']) = memFs fs (n ++ ['!']) := by
      unfold memFs
      rw [eb]
    rw [hmb]
    by_cases h5 : memFs fs (n ++ ['!']) = true
    · rw [if_pos h5, if_pos h5]
    rw [if_neg h5, if_neg h5]
    rw [lookupFs_removeFs, if_neg hnstg]

/-- Executing the staged rename when the base is already gone and the base is
not also staged for delete does not change the recovered state. -/
theorem spec_rename_dollar {fs : Fs} {b : Name} (hb : plainB b = true)
    (hmem : memFs fs (b ++ ['$']) = true)
    (hbase : lookupFs fs b = none)
    (hnbang : memFs fs (b ++ ['!']) = false) (n : Name) :
    recoverySpec (renameFs fs (b ++ ['$']) b) n = recoverySpec fs n := by
  have hbne : b ≠ [] := plainB_ne_nil hb
  have hstg : isStagedDollar (b ++ ['$']) = true := isStagedDollar_concat hbne
  obtain ⟨c, hc⟩ := Option.isSome_iff_exists.mp hmem
  have hlf : ∀ x, lookupFs (renameFs fs (b ++ ['$']) b) x =
      if x = b then some c else if x = b ++ ['$'] then none else lookupFs fs x := by
    intro x
    rw [lookupFs_renameFs, hc]
  unfold recoverySpec
  by_cases h1 : n = markerName
  · rw [if_pos h1, if_pos h1]
  rw [if_neg h1, if_neg h1]
  by_cases h2 : (isStagedBang n || isStagedDollar n) = true
  · rw [if_pos h2, if_pos h2]
  rw [if_neg h2, if_neg h2]
  by_cases h3 : n = []
  · rw [if_pos h3, if_pos h3]
  rw [if_neg h3, if_neg h3]
  have hnstg : n ≠ b ++ ['$'] := by
    intro he
    rw [he, hstg] at h2
    simp at h2
  have eb : lookupFs (renameFs fs (b ++ ['$']) b) (n ++ ['!']) = lookupFs fs (n ++ ['!']) := by
    rw [hlf]
    rw [if_neg (fun h : n ++ ['!'] = b => (plain_ne_bang_concat hb) h.symm)]
    rw [if_neg (fun h : n ++ ['!'] = b ++ ['$'] => concat_ne_of_char (by decide) h)]
  have hmb : memFs (renameFs fs (b ++ ['$']) b) (n ++ ['!']) = memFs fs (n ++ ['!']) := by
    unfold memFs
    rw [eb]
  by_cases hnb : n = b
  · -- the rename target: receives exactly the staged content
    subst hnb
    have hd : lookupFs (renameFs fs (n ++ ['$']) n) (n ++ ['$']) = none := by
      rw [hlf]
      rw [if_neg (fun h : n ++ ['$'] = n => (plain_ne_dollar_concat hb) h.symm)]
      rw [if_pos rfl]
    have hmd : memFs (renameFs fs (n ++ ['$']) n) (n ++ ['$']) = false := by
      unfold memFs
      rw [hd]
      rfl
    rw [hmd]
    rw [if_neg (by rw [Bool.eq_false_iff] at hmd; simp)]
    rw [hmb, if_pos hmem]
    rw [Bool.eq_false_iff] at hnbang
    rw [if_neg hnbang]
    rw [hlf, if_pos rfl, hc]
  · have ed : lookupFs (renameFs fs (b ++ ['$']) b) (n ++ ['$']) = lookupFs fs (n ++ ['$']) := by
      rw [hlf]
      rw [if_neg (fun h : n ++ ['$'] = b => (plain_ne_dollar_concat hb) h.symm)]
      rw [if_neg (fun h : n ++ ['$'] = b ++ ['$'] => hnb (concat_inj h))]
    have hmd : memFs (renameFs fs (b ++ ['$']) b) (n ++ ['$']) = memFs fs (n ++ ['$']) := by
      unfold memFs
      rw [ed]
    rw [hmd, ed, hmb]
    by_cases h4 : memFs fs (n ++ ['$']) = true
    · rw [if_pos h4, if_pos h4]
    rw [if_neg h4, if_neg h4]
    by_cases h5 : memFs fs (n ++ ['!']) = true
    · rw [if_pos h5, if_pos h5]
    rw [if_neg h5, if_neg h5]
    rw [hlf, if_neg hnb, if_neg hnstg]

/-! ### Preservation of the invariants along commit operations -/

theorem wfFs_removeFs {fs : Fs} (h : wfFs fs) (a : Name) : wfFs (removeFs fs a) :=
  ⟨h.1.sublist (keysFs_removeFs_sublist fs a),
   fun k hk => h.2 k ((keysFs_removeFs_sublist fs a).mem hk)⟩

theorem keysFs_insertFs (fs : Fs) (a : Name) (c : Content) :
    keysFs (insertFs fs a c) = a :: keysFs (removeFs fs a) := rfl

theorem wfFs_insertFs {fs : Fs} (h : wfFs fs) {a : Name}
    (hg : goodKey a = true) (c : Content) : wfFs (insertFs fs a c) := by
  constructor
  · rw [keysFs_insertFs]
    refine List.nodup_cons.mpr ⟨?_, (wfFs_removeFs h a).1⟩
    intro hmem
    have := lookup_isSome_of_mem_keysFs hmem
    rw [lookupFs_removeFs, if_pos rfl] at this
    simp at this
  · intro k hk
    rw [keysFs_insertFs] at hk
    rcases List.mem_cons.mp hk with h1 | h1
    · rw [h1]
      exact hg
    · exact (wfFs_removeFs h a).2 k h1

theorem wfFs_renameFs {fs : Fs} (h : wfFs fs) {a b : Name}
    (hg : goodKey b = true) : wfFs (renameFs fs a b) := by
  unfold renameFs
  cases lookupFs fs a with
  | none => exact h
  | some c => exact wfFs_insertFs (wfFs_removeFs h a) hg c

theorem disjStaged_mono {fs fs' : Fs}
    (hsub : ∀ x, (lastIs x '$' = true ∨ lastIs x '!' = true) →
        memFs fs' x = true → memFs fs x = true)
    (h : disjStaged fs) : disjStaged fs' := by
  intro k hk hd
  rw [Bool.eq_false_iff]
  intro hbang
  have hk' : memFs fs k = true := hsub k (Or.inl hd) (lookup_isSome_of_mem_keysFs hk)
  have hbang' : memFs fs (k.dropLast ++ ['!']) = true :=
    hsub _ (Or.inr (by rw [lastIs_concat]; rfl)) hbang
  have hcontra := h k (mem_keysFs_of_lookup hk') hd
  rw [hbang'] at hcontra
  simp at hcontra

theorem disjStaged_removeFs {fs : Fs} (h : disjStaged fs) (a : Name) :
    disjStaged (removeFs fs a) := by
  refine disjStaged_mono (fun x _ hx => ?_) h
  unfold memFs at hx ⊢
  rw [lookupFs_removeFs] at hx
  by_cases hxa : x = a
  · rw [if_pos hxa] at hx
    simp at hx
  · rw [if_neg hxa] at hx
    exact hx

theorem disjStaged_rename_plain {fs : Fs} (h : disjStaged fs) {a b : Name}
    (hb : plainB b = true) : disjStaged (renameFs fs a b) := by
  refine disjStaged_mono (fun x hsx hx => ?_) h
  unfold memFs at hx ⊢
  rw [lookupFs_renameFs] at hx
  cases hc : lookupFs fs a with
  | none =>
    rw [hc] at hx
    exact hx
  | some c =>
    rw [hc] at hx
    have hx' : (if x = b then some c
        else if x = a then none else lookupFs fs x).isSome = true := hx
    have hxb : x ≠ b := by
      intro he
      rcases hsx with h1 | h1
      · rw [he, plainB_not_dollar hb] at h1
        simp at h1
      · rw [he, plainB_not_bang hb] at h1
        simp at h1
    rw [if_neg hxb] at hx'
    by_cases hxa : x = a
    · rw [if_pos hxa] at hx'
      simp at hx'
    · rw [if_neg hxa] at hx'
      exact hx'

theorem memFs_removeFs_ne {fs : Fs} {a x : Name} (h : x ≠ a) :
    memFs (removeFs fs a) x = memFs fs x := by
  unfold memFs
  rw [lookupFs_removeFs, if_neg h]

theorem memFs_renameFs_ne {fs : Fs} {a b x : Name} (h1 : x ≠ a) (h2 : x ≠ b) :
    memFs (renameFs fs a b) x = memFs fs x := by
  unfold memFs
  rw [lookupFs_renameFs]
  cases hc : lookupFs fs a with
  | none => rfl
  | some c =>
    show (if x = b then some c else if x = a then none else lookupFs fs x).isSome
      = (lookupFs fs x).isSome
    rw [if_neg h2, if_neg h1]

theorem shaped_staged_ne_plain {q : CommitPair} (hq : pairShaped q = true)
    {b : Name} (hb : plainB b = true) : pairStaged q ≠ b := by
  intro he
  cases q with
  | bang x =>
    simp only [pairShaped] at hq
    simp only [pairStaged] at he
    have h1 := plainB_not_bang hb
    rw [← he, isStagedBang_last hq] at h1
    simp at h1
  | dollar x =>
    simp only [pairShaped] at hq
    simp only [pairStaged] at he
    have h1 := plainB_not_dollar hb
    rw [← he, isStagedDollar_last hq] at h1
    simp at h1

/-- Master lemma: executing any number of primitive commit operations, two
per staged entry in program order, changes neither the recovered state nor
the invariants (well-formedness, marker presence). -/
theorem spec_after_ops (ps : List CommitPair) :
    ∀ (fs : Fs) (k : Nat), wfFs fs → memFs fs markerName = true → disjStaged fs →
      (ps.map pairStaged).Nodup →
      (∀ p ∈ ps, pairShaped p = true ∧ memFs fs (pairStaged p) = true) →
      (∀ n, recoverySpec (applyOps fs ((ps.flatMap pairOps).take k)) n = recoverySpec fs n)
      ∧ wfFs (applyOps fs ((ps.flatMap pairOps).take k))
      ∧ memFs (applyOps fs ((ps.flatMap pairOps).take k)) markerName = true := by
  induction ps with
  | nil =>
    intro fs k hwf hm hdisj _ _
    simp only [List.flatMap_nil, List.take_nil]
    exact ⟨fun n => rfl, hwf, hm⟩
  | cons p ps ih =>
    intro fs k hwf hm hdisj hnd hok
    obtain ⟨hsh, hmemn⟩ := hok p (List.mem_cons_self _ _)
    have hndtail : (ps.map pairStaged).Nodup := (List.nodup_cons.mp (by simpa using hnd)).2
    have hhead : pairStaged p ∉ ps.map pairStaged := (List.nodup_cons.mp (by simpa using hnd)).1
    cases p with
    | bang n =>
      simp only [pairShaped] at hsh
      simp only [pairStaged] at hmemn hhead
      obtain ⟨b, rfl⟩ : ∃ b, n = b ++ ['!'] :=
        ⟨n.dropLast, reconstruct_of_lastIs (isStagedBang_last hsh)⟩
      have hb : plainB b = true := by
        have hg := hwf.2 _ (mem_keysFs_of_lookup hmemn)
        have := goodKey_bang_base hg hsh
        rwa [List.dropLast_concat] at this
      have hbm : b ≠ markerName := plain_ne_marker hb
      have hnm2 : b ++ ['!'] ≠ markerName := stagedBang_ne_marker hsh
      -- state after the first operation of the pair
      have hspec1 : ∀ x, recoverySpec (removeFs fs b) x = recoverySpec fs x :=
        spec_remove_base hb (Or.inr hmemn)
      have hwf1 : wfFs (removeFs fs b) := wfFs_removeFs hwf b
      have hm1 : memFs (removeFs fs b) markerName = true := by
        rw [memFs_removeFs_ne (fun h => hbm h.symm)]
        exact hm
      have hdisj1 : disjStaged (removeFs fs b) := disjStaged_removeFs hdisj b
      -- state after both operations of the pair
      have hbase1 : lookupFs (removeFs fs b) b = none := by
        rw [lookupFs_removeFs, if_pos rfl]
      have hspec2 : ∀ x,
          recoverySpec (removeFs (removeFs fs b) (b ++ ['!'])) x =
            recoverySpec (removeFs fs b) x :=
        spec_remove_bangfile hb hbase1
      have hwf2 : wfFs (removeFs (removeFs fs b) (b ++ ['!'])) :=
        wfFs_removeFs hwf1 _
      have hm2 : memFs (removeFs (removeFs fs b) (b ++ ['!'])) markerName = true := by
        rw [memFs_removeFs_ne (fun h => hnm2 h.symm)]
        exact hm1
      have hdisj2 : disjStaged (removeFs (removeFs fs b) (b ++ ['!'])) :=
        disjStaged_removeFs hdisj1 _
      have hok2 : ∀ q ∈ ps, pairShaped q = true ∧
          memFs (removeFs (removeFs fs b) (b ++ ['!'])) (pairStaged q) = true := by
        intro q hq
        obtain ⟨h1, h2⟩ := hok q (List.mem_cons_of_mem _ hq)
        refine ⟨h1, ?_⟩
        have e1 : pairStaged q ≠ b := shaped_staged_ne_plain h1 hb
        have e2 : pairStaged q ≠ b ++ ['!'] := by
          intro he
          exact hhead (he ▸ List.mem_map_of_mem pairStaged hq)
        rw [memFs_removeFs_ne e2, memFs_removeFs_ne e1]
        exact h2
      -- split on how deep into the pair the prefix reaches
      match k with
      | 0 =>
        simp only [List.take_zero]
        exact ⟨fun n => rfl, hwf, hm⟩
      | 1 =>
        have hops : ((CommitPair.bang (b ++ ['!']) :: ps).flatMap pairOps).take 1 =
            [FsOp.rm (b ++ ['!']).dropLast] := by
          simp [pairOps, bangOpsOf]
        rw [hops]
        have happ : applyOps fs [FsOp.rm (b ++ ['!']).dropLast] = removeFs fs b := by
          simp [applyOps, applyOp, List.dropLast_concat]
        rw [happ]
        exact ⟨hspec1, hwf1, hm1⟩
      | (k + 2) =>
        have hops : ((CommitPair.bang (b ++ ['!']) :: ps).flatMap pairOps).take (k + 2) =
            FsOp.rm (b ++ ['!']).dropLast :: FsOp.rm (b ++ ['!']) ::
              (ps.flatMap pairOps).take k := by
          simp [pairOps, bangOpsOf]
        rw [hops]
        have happ : ∀ l, applyOps fs
            (FsOp.rm (b ++ ['!']).dropLast :: FsOp.rm (b ++ ['!']) :: l) =
            applyOps (removeFs (removeFs fs b) (b ++ ['!'])) l := by
          intro l
          simp [applyOps, applyOp, List.dropLast_concat]
        rw [happ]
        obtain ⟨ihs, ihw, ihm⟩ := ih (removeFs (removeFs fs b) (b ++ ['!']))
          k hwf2 hm2 hdisj2 hndtail hok2
        exact ⟨fun x => (ihs x).trans ((hspec2 x).trans (hspec1 x)), ihw, ihm⟩
    | dollar n =>
      simp only [pairShaped] at hsh
      simp only [pairStaged] at hmemn hhead
      obtain ⟨b, rfl⟩ : ∃ b, n = b ++ ['$'] :=
        ⟨n.dropLast, reconstruct_of_lastIs (isStagedDollar_last hsh)⟩
      have hb : plainB b = true := by
        have hg := hwf.2 _ (mem_keysFs_of_lookup hmemn)
        have := goodKey_dollar_base hg hsh
        rwa [List.dropLast_concat] at this
      have hbm : b ≠ markerName := plain_ne_marker hb
      have hnm2 : b ++ ['$'] ≠ markerName := stagedDollar_ne_marker hsh
      have hspec1 : ∀ x, recoverySpec (removeFs fs b) x = recoverySpec fs x :=
        spec_remove_base hb (Or.inl hmemn)
      have hwf1 : wfFs (removeFs fs b) := wfFs_removeFs hwf b
      have hm1 : memFs (removeFs fs b) markerName = true := by
        rw [memFs_removeFs_ne (fun h => hbm h.symm)]
        exact hm
      have hdisj1 : disjStaged (removeFs fs b) := disjStaged_removeFs hdisj b
      have hbase1 : lookupFs (removeFs fs b) b = none := by
        rw [lookupFs_removeFs, if_pos rfl]
      have hmem1 : memFs (removeFs fs b) (b ++ ['$']) = true := by
        rw [memFs_removeFs_ne (fun h => (plain_ne_dollar_concat hb) h.symm)]
        exact hmemn
      have hnbang1 : memFs (removeFs fs b) (b ++ ['!']) = false := by
        have hd := hdisj (b ++ ['$']) (mem_keysFs_of_lookup hmemn)
          (by rw [lastIs_concat]; rfl)
        rw [List.dropLast_concat] at hd
        rw [memFs_removeFs_ne (fun h => (plain_ne_bang_concat hb) h.symm)]
        exact hd
      have hspec2 : ∀ x,
          recoverySpec (renameFs (removeFs fs b) (b ++ ['$']) b) x =
            recoverySpec (removeFs fs b) x :=
        spec_rename_dollar hb hmem1 hbase1 hnbang1
      have hwf2 : wfFs (renameFs (removeFs fs b) (b ++ ['$']) b) :=
        wfFs_renameFs hwf1 (goodKey_of_plain hb)
      have hm2 : memFs (renameFs (removeFs fs b) (b ++ ['$']) b) markerName = true := by
        rw [memFs_renameFs_ne (fun h => hnm2 h.symm) (fun h => hbm h.symm)]
        exact hm1
      have hdisj2 : disjStaged (renameFs (removeFs fs b) (b ++ ['$']) b) :=
        disjStaged_rename_plain hdisj1 hb
      have hok2 : ∀ q ∈ ps, pairShaped q = true ∧
          memFs (renameFs (removeFs fs b) (b ++ ['$']) b) (pairStaged q) = true := by
        intro q hq
        obtain ⟨h1, h2⟩ := hok q (List.mem_cons_of_mem _ hq)
        refine ⟨h1, ?_⟩
        have e1 : pairStaged q ≠ b := shaped_staged_ne_plain h1 hb
        have e2 : pairStaged q ≠ b ++ ['$'] := by
          intro he
          exact hhead (he ▸ List.mem_map_of_mem pairStaged hq)
        rw [memFs_renameFs_ne e2 e1, memFs_removeFs_ne e1]
        exact h2
      match k with
      | 0 =>
        simp only [List.take_zero]
        exact ⟨fun n => rfl, hwf, hm⟩
      | 1 =>
        have hops : ((CommitPair.dollar (b ++ ['$']) :: ps).flatMap pairOps).take 1 =
            [FsOp.rm (b ++ ['$']).dropLast] := by
          simp [pairOps, dollarOpsOf]
        rw [hops]
        have happ : applyOps fs [FsOp.rm (b ++ ['$']).dropLast] = removeFs fs b := by
          simp [applyOps, applyOp, List.dropLast_concat]
        rw [happ]
        exact ⟨hspec1, hwf1, hm1⟩
      | (k + 2) =>
        have hops : ((CommitPair.dollar (b ++ ['$']) :: ps).flatMap pairOps).take (k + 2) =
            FsOp.rm (b ++ ['$']).dropLast ::
              FsOp.mv (b ++ ['$']) (b ++ ['$']).dropLast ::
              (ps.flatMap pairOps).take k := by
          simp [pairOps, dollarOpsOf]
        rw [hops]
        have happ : ∀ l, applyOps fs
            (FsOp.rm (b ++ ['$']).dropLast ::
              FsOp.mv (b ++ ['$']) (b ++ ['$']).dropLast :: l) =
            applyOps (renameFs (removeFs fs b) (b ++ ['$']) b) l := by
          intro l
          simp [applyOps, applyOp, List.dropLast_concat]
        rw [happ]
        obtain ⟨ihs, ihw, ihm⟩ := ih (renameFs (removeFs fs b) (b ++ ['$']) b)
          k hwf2 hm2 hdisj2 hndtail hok2
        exact ⟨fun x => (ihs x).trans ((hspec2 x).trans (hspec1 x)), ihw, ihm⟩

theorem pairsOf_staged (fs : Fs) :
    (pairsOf fs).map pairStaged =
      (keysFs fs).filter isStagedBang
        ++ (keysFs (bangPhase fs (keysFs fs))).filter isStagedDollar := by
  unfold pairsOf
  rw [List.map_append, List.map_map, List.map_map]
  rw [show pairStaged ∘ CommitPair.bang = id from rfl,
    show pairStaged ∘ CommitPair.dollar = id from rfl,
    List.map_id, List.map_id]

theorem memFs_of_bangPhase {fs : Fs} {x : Name}
    (h : memFs (bangPhase fs (keysFs fs)) x = true) : memFs fs x = true := by
  unfold memFs at h ⊢
  rw [bangPhase_lookup] at h
  by_cases hh : hitByBang (keysFs fs) x = true
  · rw [if_pos hh] at h
    simp at h
  · rw [if_neg hh] at h
    exact h

/-- C1: commit atomicity under interruption.  Start from a well-formed
directory `S` without the global marker whose staged sets are disjoint,
create the marker (as `trans:end` does), crash after any number `k` of the
primitive file operations of the commit replay (all crash points strictly
after marker creation and strictly before marker removal arise this way),
and run `endTransaction` on the crashed state.  The result is exactly the
post-commit state: every staged rename `A$ ↦ c` ends with `A ↦ c` and no
surviving `A$`; every staged delete `A!` ends with both `A` and `A!` gone;
the marker is gone; every other name is untouched. -/
theorem claim_C1_commit_atomicity (S : Fs) (hwf : wfFs S)
    (hnm : memFs S markerName = false) (hdisj : disjStaged S) (k : Nat) :
    (∀ b c, lookupFs S (b ++ ['$']) = some c →
        lookupFs (commitCrashRecovered S k) b = some c ∧
        lookupFs (commitCrashRecovered S k) (b ++ ['$']) = none) ∧
    (∀ b, memFs S (b ++ ['!']) = true →
        lookupFs (commitCrashRecovered S k) b = none ∧
        lookupFs (commitCrashRecovered S k) (b ++ ['!']) = none) ∧
    lookupFs (commitCrashRecovered S k) markerName = none ∧
    (∀ n, plainB n = true → memFs S (n ++ ['$']) = false →
        memFs S (n ++ ['!']) = false →
        lookupFs (commitCrashRecovered S k) n = lookupFs S n) := by
  have hwfm : wfFs (insertFs S markerName []) := wfFs_insertFs hwf (by decide) []
  have hmm : memFs (insertFs S markerName []) markerName = true := by
    unfold memFs
    rw [lookupFs_insertFs, if_pos rfl]
    rfl
  have hlkm : ∀ x, lookupFs (insertFs S markerName []) x =
      if x = markerName then some [] else lookupFs S x :=
    fun x => lookupFs_insertFs S markerName [] x
  have hdisjm : disjStaged (insertFs S markerName []) := by
    intro kk hkk hdollar
    rw [Bool.eq_false_iff]
    intro hbang
    have hne : kk.dropLast ++ ['!'] ≠ markerName := by
      intro he
      have h2 : lastIs (kk.dropLast ++ ['!']) '!' = true := by
        rw [lastIs_concat]
        rfl
      rw [he] at h2
      simp [lastIs, markerName] at h2
    have hbangS : memFs S (kk.dropLast ++ ['!']) = true := by
      unfold memFs at hbang ⊢
      rw [lookupFs_insertFs, if_neg hne] at hbang
      exact hbang
    by_cases hkm : kk = markerName
    · subst hkm
      have hbad : lookupFs S ((markerName : Name).dropLast ++ ['!']) = none :=
        lookup_none_of_bad hwf.2 (by decide)
      unfold memFs at hbangS
      rw [hbad] at hbangS
      simp at hbangS
    · have hkkS : kk ∈ keysFs S := by
        have h3 := lookup_isSome_of_mem_keysFs hkk
        rw [lookupFs_insertFs, if_neg hkm] at h3
        exact mem_keysFs_of_lookup h3
      have h4 := hdisj kk hkkS hdollar
      rw [hbangS] at h4
      simp at h4
  have hndp : ((pairsOf (insertFs S markerName [])).map pairStaged).Nodup := by
    rw [pairsOf_staged]
    refine List.Nodup.append (hwfm.1.filter _)
      ((hwfm.1.sublist (bangPhase_keys_sublist _ _)).filter _) ?_
    intro x hx1 hx2
    have h1 := (List.mem_filter.mp hx1).2
    have h2 := (List.mem_filter.mp hx2).2
    have := lastIs_unique (isStagedBang_last h1) (isStagedDollar_last h2)
    simp at this
  have hokp : ∀ p ∈ pairsOf (insertFs S markerName []),
      pairShaped p = true ∧
        memFs (insertFs S markerName []) (pairStaged p) = true := by
    intro p hp
    unfold pairsOf at hp
    rcases List.mem_append.mp hp with hp | hp
    · obtain ⟨x, hx, rfl⟩ := List.mem_map.mp hp
      obtain ⟨hx1, hx2⟩ := List.mem_filter.mp hx
      exact ⟨hx2, lookup_isSome_of_mem_keysFs hx1⟩
    · obtain ⟨x, hx, rfl⟩ := List.mem_map.mp hp
      obtain ⟨hx1, hx2⟩ := List.mem_filter.mp hx
      exact ⟨hx2, memFs_of_bangPhase (lookup_isSome_of_mem_keysFs hx1)⟩
  obtain ⟨hs, hw, hmk⟩ := spec_after_ops (pairsOf (insertFs S markerName []))
    (insertFs S markerName []) k hwfm hmm hdisjm hndp hokp
  have hrec : ∀ n, lookupFs (commitCrashRecovered S k) n =
      recoverySpec (insertFs S markerName []) n := by
    intro n
    unfold commitCrashRecovered
    rw [recovery_lookup (crashFs (insertFs S markerName []) k) hw hmk n]
    exact hs n
  refine ⟨?_, ?_, ?_, ?_⟩
  · -- staged renames complete
    intro b c hbc
    have hbnil : b ≠ [] := by
      intro he
      subst he
      unfold memFs at hnm
      rw [show (([] : Name) ++ ['$']) = markerName from rfl] at hbc
      rw [hbc] at hnm
      simp at hnm
    have hstg : isStagedDollar (b ++ ['$']) = true := isStagedDollar_concat hbnil
    have hb : plainB b = true := by
      have hg := hwf.2 (b ++ ['$']) (mem_keysFs_of_lookup (by rw [hbc]; rfl))
      have := goodKey_dollar_base hg hstg
      rwa [List.dropLast_concat] at this
    have hsb : (isStagedBang b || isStagedDollar b) = false := by
      unfold isStagedBang isStagedDollar
      rw [plainB_not_dollar hb, plainB_not_bang hb]
      simp
    have hdne : b ++ ['$'] ≠ markerName := stagedDollar_ne_marker hstg
    constructor
    · rw [hrec b]
      unfold recoverySpec
      rw [if_neg (plain_ne_marker hb), if_neg (by rw [hsb]; simp),
        if_neg (plainB_ne_nil hb)]
      have hmem : memFs (insertFs S markerName []) (b ++ ['$']) = true := by
        unfold memFs
        rw [hlkm, if_neg hdne, hbc]
        rfl
      rw [if_pos hmem, hlkm, if_neg hdne, hbc]
    · rw [hrec (b ++ ['$'])]
      unfold recoverySpec
      rw [if_neg hdne, if_pos (by rw [hstg]; simp)]
  · -- staged deletes complete
    intro b hbmem
    have hbnil : b ≠ [] := by
      intro he
      subst he
      have hbad : lookupFs S (([] : Name) ++ ['!']) = none :=
        lookup_none_of_bad hwf.2 (by decide)
      unfold memFs at hbmem
      rw [hbad] at hbmem
      simp at hbmem
    have hstg : isStagedBang (b ++ ['!']) = true := isStagedBang_concat hbnil
    have hb : plainB b = true := by
      have hg := hwf.2 (b ++ ['!']) (mem_keysFs_of_lookup hbmem)
      have := goodKey_bang_base hg hstg
      rwa [List.dropLast_concat] at this
    have hsb : (isStagedBang b || isStagedDollar b) = false := by
      unfold isStagedBang isStagedDollar
      rw [plainB_not_dollar hb, plainB_not_bang hb]
      simp
    have hbne : b ++ ['!'] ≠ markerName := stagedBang_ne_marker hstg
    have hdne : b ++ ['$'] ≠ markerName :=
      stagedDollar_ne_marker (isStagedDollar_concat hbnil)
    have hnod : memFs S (b ++ ['$']) = false := by
      rw [Bool.eq_false_iff]
      intro h
      have hd := hdisj (b ++ ['$']) (mem_keysFs_of_lookup h)
        (by rw [lastIs_concat]; rfl)
      rw [List.dropLast_concat, hbmem] at hd
      simp at hd
    constructor
    · rw [hrec b]
      unfold recoverySpec
      rw [if_neg (plain_ne_marker hb), if_neg (by rw [hsb]; simp),
        if_neg (plainB_ne_nil hb)]
      have hmd : memFs (insertFs S markerName []) (b ++ ['$']) = false := by
        unfold memFs
        rw [hlkm, if_neg hdne]
        unfold memFs at hnod
        exact hnod
      have hmb : memFs (insertFs S markerName []) (b ++ ['!']) = true := by
        unfold memFs
        rw [hlkm, if_neg hbne]
        unfold memFs at hbmem
        exact hbmem
      rw [if_neg (by rw [hmd]; simp), if_pos hmb]
    · rw [hrec (b ++ ['!'])]
      unfold recoverySpec
      rw [if_neg hbne, if_pos (by rw [hstg]; simp)]
  · -- the marker is gone
    rw [hrec markerName]
    unfold recoverySpec
    rw [if_pos rfl]
  · -- untouched names
    intro n hn hndS hnbS
    have hnnil : n ≠ [] := plainB_ne_nil hn
    have hsb : (isStagedBang n || isStagedDollar n) = false := by
      unfold isStagedBang isStagedDollar
      rw [plainB_not_dollar hn, plainB_not_bang hn]
      simp
    have hdne : n ++ ['$'] ≠ markerName :=
      stagedDollar_ne_marker (isStagedDollar_concat hnnil)
    have hbne : n ++ ['!'] ≠ markerName :=
      stagedBang_ne_marker (isStagedBang_concat hnnil)
    rw [hrec n]
    unfold recoverySpec
    rw [if_neg (plain_ne_marker hn), if_neg (by rw [hsb]; simp),
      if_neg hnnil]
    have hmd : memFs (insertFs S markerName []) (n ++ ['$']) = false := by
      unfold memFs
      rw [hlkm, if_neg hdne]
      unfold memFs at hndS
      exact hndS
    have hmb : memFs (insertFs S markerName []) (n ++ ['!']) = false := by
      unfold memFs
      rw [hlkm, if_neg hbne]
      unfold memFs at hnbS
      exact hnbS
    rw [if_neg (by rw [hmd]; simp), if_neg (by rw [hmb]; simp),
      hlkm, if_neg (plain_ne_marker hn)]

instance (fs : Fs) : Decidable (wfFs fs) := by
  unfold wfFs
  infer_instance

instance (fs : Fs) : Decidable (disjStaged fs) := by
  unfold disjStaged
  infer_instance

/-- Concrete staged state for exercising C1: one staged rename `a$ ↦ a`, one
staged delete `b!` with `b` present, one untouched file `c`. -/
def fsC1wit : Fs :=
  [(['a', '$'], [1, 2]), (['b', '!'], []), (['b'], [7]), (['c'], [9])]

/-- C1 witness: the atomicity theorem applied to `fsC1wit` with a crash one
primitive operation into the commit. -/
theorem claim_C1_witness :
    wfFs fsC1wit ∧
    lookupFs (commitCrashRecovered fsC1wit 1) ['a'] = some [1, 2] ∧
    lookupFs (commitCrashRecovered fsC1wit 1) (['a'] ++ ['$']) = none ∧
    lookupFs (commitCrashRecovered fsC1wit 1) ['b'] = none ∧
    lookupFs (commitCrashRecovered fsC1wit 1) markerName = none ∧
    lookupFs (commitCrashRecovered fsC1wit 1) ['c'] = some [9] := by
  have h := claim_C1_commit_atomicity fsC1wit (by decide) (by decide) (by decide) 1
  exact ⟨by decide, (h.1 ['a'] [1, 2] (by decide)).1, (h.1 ['a'] [1, 2] (by decide)).2,
    (h.2.1 ['b'] (by decide)).1, h.2.2.1,
    h.2.2.2 ['c'] (by decide) (by decide) (by decide)⟩

/-- Counterexample state for C2: the global marker plus an entry named just
`"!"`.  The marker branch of the first `endTransaction` skips the length-1
entry `"!"` (its loop requires `length > 1`), removes the marker and returns
`true`; the second call takes the no-marker branch, whose cleanup has no
length guard, deletes `"!"` and returns `true` again. -/
def fsC2cex : Fs := [(['$'], []), (['!'], [7])]

/-- C2 counterexample: there is a filesystem state on which `endTransaction`
run twice in a row with no intervening writes returns `true` — not `false` —
on the second call, refuting the claim's quantification over all states. -/
theorem claim_C2_counterexample :
    (endTransaction (endTransaction fsC2cex).1).2 = true := by decide

/-- C2 (amended): `endTransaction` returns `true` exactly when it changed
the filesystem, and for every well-formed state — distinct nonempty entry
names in which every reserved-suffix entry other than the marker itself has
length at least two and a plain base name — running it twice in a row with
no intervening writes returns `false` ("no changes") on the second call. -/
theorem claim_C2_recovery_idempotence :
    (∀ fs : Fs, (endTransaction fs).2 = true ↔
        ∃ n, lookupFs (endTransaction fs).1 n ≠ lookupFs fs n) ∧
    (∀ fs : Fs, wfFs fs → (endTransaction (endTransaction fs).1).2 = false) :=
  ⟨endTransaction_modified_iff, endTransaction_idem⟩

/-- A well-formed state with a pending transaction, for the C2 witness. -/
def fsC2wit : Fs := [(['$'], []), (['a', '$'], [1]), (['b'], [2])]

/-- C2 witness: the amended idempotence applied to the concrete state
`fsC2wit`. -/
theorem claim_C2_witness :
    wfFs fsC2wit ∧ (endTransaction (endTransaction fsC2wit).1).2 = false :=
  ⟨by decide, claim_C2_recovery_idempotence.2 fsC2wit (by decide)⟩

/-! ## Hex decoding of the `wr` payload (src/unnamed/part_004:737-762)

The loop walks the hex string two characters at a time
(`substr(i, 2)` — a single character for the final group of an odd-length
string) and parses each group with `std::stoi(byteStr, nullptr, 16)`,
catching `invalid_argument` to abort the whole command.  `std::stoi`
follows `strtol` semantics: skip leading whitespace, then an optional sign,
then hex digits; it throws exactly when no digit is consumed.  (The `0x`
prefix `strtol` also accepts needs at least three characters, so it never
completes within a two-character group: `"0x"` parses as the digit `0`.)
`out_of_range` cannot occur for at most two hex digits.  The parsed `int`
is converted with `static_cast<uint8_t>`, i.e. reduced mod 256. -/

def isSpaceC (c : Char) : Bool :=
  c = ' ' || c = '\t' || c = '\n' || c = '\x0b' || c = '\x0c' || c = '\r'

def hexVal (c : Char) : Option Nat :=
  if '0' ≤ c ∧ c ≤ '9' then some (c.toNat - '0'.toNat)
  else if 'a' ≤ c ∧ c ≤ 'f' then some (c.toNat - 'a'.toNat + 10)
  else if 'A' ≤ c ∧ c ≤ 'F' then some (c.toNat - 'A'.toNat + 10)
  else none

/-- Value of the longest leading hex-digit run. -/
def hexRunVal : List Char → Nat → Nat
  | [], acc => acc
  | c :: t, acc =>
    match hexVal c with
    | none => acc
    | some v => hexRunVal t (acc * 16 + v)

/-- `std::stoi(s, nullptr, 16)`: `none` models a thrown
`invalid_argument`. -/
def stoi16 (l : List Char) : Option Int :=
  match l.dropWhile isSpaceC with
  | [] => none
  | '-' :: rest =>
    match rest with
    | [] => none
    | c :: _ => if (hexVal c).isSome then some (-(hexRunVal rest 0 : Int)) else none
  | '+' :: rest =>
    match rest with
    | [] => none
    | c :: _ => if (hexVal c).isSome then some ((hexRunVal rest 0 : Int)) else none
  | c :: t => if (hexVal c).isSome then some ((hexRunVal (c :: t) 0 : Int)) else none

/-- The decode loop: all groups parsed before any file operation; the first
failing group aborts the command. -/
def decodeHex : List Char → Option (List Nat)
  | [] => some []
  | c1 :: c2 :: rest =>
    match stoi16 [c1, c2] with
    | none => none
    | some v =>
      match decodeHex rest with
      | none => none
      | some bs => some ((v % 256).toNat :: bs)
  | [c1] =>
    match stoi16 [c1] with
    | none => none
    | some v => some [(v % 256).toNat]

/-- Size of the destination vector: `std::vector<uint8_t> data(len / 2)`. -/
def wrVecLen (l : List Char) : Nat := l.length / 2

/-- The indices `i >> 1` at which the decode loop stores bytes, in order,
stopping at the first rejected group. -/
def wrStoreIxs : List Char → Nat → List Nat
  | [], _ => []
  | c1 :: c2 :: rest, i =>
    match stoi16 [c1, c2] with
    | none => []
    | some _ => i :: wrStoreIxs rest (i + 1)
  | [c1], i =>
    match stoi16 [c1] with
    | none => []
    | some _ => [i]

/-! ## The SPIFFS command dispatcher (src/unnamed/part_004:455-932)

Each branch is modelled together with the trace of `writeEvent` calls and
mutating file operations it performs, in program order.  `Ev.fop` marks one
call site that can mutate the filesystem (`remove`, `rename`, `truncate`, a
`"w"`/`"a"` `fopen`, an `fwrite`); the `clearDir` and `endTransaction`
subroutine calls inside `trans` are each represented by their file
operations respectively one coarse `Ev.fop` — both happen strictly inside
the surrounding `writeEvent(true)`/`writeEvent(false)` window, which is what
the bracketing claim is about.  `IoOk` fixes the outcome of the fallible
calls so that every error branch of the source is reachable in the model. -/

inductive Ev where
  | lock (b : Bool)
  | fop
deriving DecidableEq

/-- A `writeEvent(true) … writeEvent(false)` window containing `n` file
operations. -/
def block (n : Nat) : List Ev :=
  Ev.lock true :: (List.replicate n Ev.fop ++ [Ev.lock false])

/-- Outcomes of the fallible I/O calls a command path makes. -/
structure IoOk where
  openOk : Bool := true
  writeOk : Bool := true
  renameOk : Bool := true

/-- The JSON answer fields the modelled branches produce. -/
structure SAns where
  error : Option (List Char) := none
  warning : Option (List Char) := none
  rewrite : Bool := false
  fw : Option Name := none
  fd : Option Name := none
  fold : Option Name := none
  fnew : Option Name := none
  transAck : Option (List Char) := none
  tc : Option Name := none
  ta : Option Name := none
  sizeA : Option Nat := none
  offsetA : Option Nat := none

structure SRes where
  fs : Fs
  ans : SAns
  tr : List Ev

/-- The parsed command forms of `CSpiffsSystem::command` (the JSON key
extraction is glue; `ls`/`rd`/`rt` answers, which mutate nothing, are
elided). -/
inductive SCmd where
  | ls (dir : Name)
  | rd (fname : Name)
  | rm (fname : Name)
  | trans (mode : Name) (clear : List Name)
  | ren (oldN newN : Name)
  | wr (fname : Name) (data : Option (List Char)) (offset : Option Nat)
  | ct (fname : Name) (text : List Nat)
  | atxt (fname : Name) (text : List Nat)
  | rt (fname : Name)

/-- Leading-segment removal: `stripLead p k = some r` iff `k = p ++ r`. -/
def stripLead : Name → Name → Option Name
  | [], k => some k
  | _ :: _, [] => none
  | c :: t, d :: k => if c = d then stripLead t k else none

/-- The relative name of `k` below directory `dir` (SPIFFS is flat:
`readdir` on a directory path yields every object below it). -/
def underDir (dir : Name) (k : Name) : Option Name :=
  stripLead (dir ++ ['/']) k

/-- The `readdir` snapshot of `clearDir`'s directory. -/
def clearDirEntries (fs : Fs) (dir : Name) : List Name :=
  (keysFs fs).filterMap (underDir dir)

/-- The second-pass body of `clearDir`: skip entries whose base is staged
for rename, create `dir/str!` (empty, counted) for every remaining entry of
length > 1 not ending in a reserved character. -/
def clearStep (transFiles : List Name) (dir : Name) (st : Fs × Nat)
    (str : Name) : Fs × Nat :=
  if str ∈ transFiles then st
  else if decide (1 < str.length) && !(lastIs str '!') && !(lastIs str '$') then
    (insertFs st.1 (dir ++ ['/'] ++ str ++ ['!']) [], st.2 + 1)
  else st

/-- The first pass of `clearDir`: base names of staged-rename entries. -/
def transFilesOf (entries : List Name) : List Name :=
  entries.filterMap fun s =>
    if decide (1 < s.length) && lastIs s '$' then some s.dropLast else none

/-- `CSpiffsSystem::clearDir` (src/unnamed/part_004:388-435): first pass
collects the base names of staged-rename entries; second pass creates an
empty staged-delete file `str!` for every remaining eligible entry.
Returns the new state and the count of files created. -/
def clearDir (fs : Fs) (dir : Name) : Fs × Nat :=
  (clearDirEntries fs dir).foldl
    (clearStep (transFilesOf (clearDirEntries fs dir)) dir) (fs, 0)

/-- `CSpiffsSystem::writeBuffer` (src/unnamed/part_004:345-377): append
`data` to `fname` inside a `writeEvent` window.  On a failed `fwrite` the
model keeps the pre-write content (the partial write is not observed by any
claim). -/
def writeBufferT (openOk writeOk : Bool) (fname : Name) (data : List Nat)
    (fs : Fs) : Fs × Bool × List Ev :=
  if openOk then
    if writeOk then
      (insertFs fs fname ((lookupFs fs fname).getD [] ++ data), true, block 2)
    else
      ((if memFs fs fname then fs else insertFs fs fname []), false, block 2)
  else
    (fs, false, block 0)

def runSpiffs (cmd : SCmd) (io : IoOk) (fs : Fs) : SRes :=
  match cmd with
  | .ls _ => { fs := fs, ans := {}, tr := block 0 }
  | .rd _ => { fs := fs, ans := {}, tr := [] }
  | .rt _ => { fs := fs, ans := {}, tr := [] }
  | .rm fname =>
    if memFs fs fname then
      { fs := removeFs fs fname, ans := { fd := some fname }, tr := block 1 }
    else
      { fs := fs,
        ans := { warning := some ("File do not exist".toList), fd := some fname },
        tr := block 0 }
  | .trans mode clear =>
    if mode = "end".toList then
      let cleared := clear.foldl
        (fun (p : Fs × Nat) d =>
          let r := clearDir p.1 d
          (r.1, p.2 + r.2)) (fs, 0)
      { fs := (endTransaction (insertFs cleared.1 markerName [])).1,
        ans := { transAck := some ("end".toList) },
        tr := block (cleared.2 + 2) }
    else if mode = "cancel".toList then
      { fs := (endTransaction (removeFs fs markerName)).1,
        ans := { transAck := some ("cancel".toList) },
        tr := block 2 }
    else
      { fs := fs,
        ans := { error := some ("Wrong transaction command: ".toList ++ mode) },
        tr := [] }
  | .ren o n =>
    if memFs fs o then
      if memFs fs n then
        if io.renameOk then
          { fs := renameFs (removeFs fs n) o n,
            ans := { fold := some o, fnew := some n }, tr := block 2 }
        else
          { fs := removeFs fs n,
            ans := { error := some ("Failed to rename file ".toList ++ o
              ++ " to ".toList ++ n) },
            tr := block 2 }
      else
        if io.renameOk then
          { fs := renameFs fs o n,
            ans := { fold := some o, fnew := some n }, tr := block 1 }
        else
          { fs := fs,
            ans := { error := some ("Failed to rename file ".toList ++ o
              ++ " to ".toList ++ n) },
            tr := block 1 }
    else if memFs fs n then
      { fs := fs,
        ans := { warning := some ("Old file do not exist".toList), fnew := some n },
        tr := block 0 }
    else
      { fs := fs,
        ans := { error := some ("Failed to rename file ".toList ++ o
          ++ " to ".toList ++ n) },
        tr := block 0 }
  | .wr fname data offset? =>
    match data with
    | none =>
      { fs := fs,
        ans := { error := some ("No data to write for ".toList ++ fname) },
        tr := [] }
    | some hexString =>
      match decodeHex hexString with
      | none =>
        { fs := fs,
          ans := { error := some ("Invalid hex character in string: ".toList) },
          tr := [] }
      | some bytes =>
        if io.openOk then
          let c0 := (lookupFs fs fname).getD []
          let offset := offset?.getD 0
          if offset < c0.length then
            -- truncate to `offset`, reopen, `rewrite:true`; the offset now
            -- equals the size, so the re-check cannot reject
            if io.writeOk then
              { fs := insertFs fs fname (c0.take offset ++ bytes),
                ans := { rewrite := true, fw := some fname,
                         offsetA := if offset ≠ 0 then some offset else none,
                         sizeA := some bytes.length },
                tr := block 4 }
            else
              { fs := insertFs fs fname (c0.take offset),
                ans := { rewrite := true,
                         error := some ("Failed to write to file ".toList ++ fname) },
                tr := block 4 }
          else if offset ≠ c0.length then
            { fs := if memFs fs fname then fs else insertFs fs fname [],
              ans := { error := some ("Wrong offset of file ".toList ++ fname) },
              tr := block 1 }
          else
            if io.writeOk then
              { fs := insertFs fs fname (c0 ++ bytes),
                ans := { fw := some fname,
                         offsetA := if offset ≠ 0 then some offset else none,
                         sizeA := some bytes.length },
                tr := block 2 }
            else
              { fs := if memFs fs fname then fs else insertFs fs fname [],
                ans := { error := some ("Failed to write to file ".toList ++ fname) },
                tr := block 2 }
        else
          { fs := fs,
            ans := { error := some ("Failed to open file ".toList ++ fname) },
            tr := block 0 }
  | .ct fname text =>
    if io.openOk then
      if io.writeOk then
        { fs := insertFs fs fname text,
          ans := { tc := some fname, sizeA := some text.length }, tr := block 2 }
      else
        { fs := insertFs fs fname [],
          ans := { error := some ("Failed to write to file ".toList ++ fname) },
          tr := block 2 }
    else
      { fs := fs,
        ans := { error := some ("Failed to open file ".toList ++ fname) },
        tr := block 0 }
  | .atxt fname text =>
    if io.openOk then
      if io.writeOk then
        { fs := insertFs fs fname ((lookupFs fs fname).getD [] ++ text),
          ans := { ta := some fname,
                   sizeA := some (((lookupFs fs fname).getD []).length + text.length) },
          tr := block 2 }
      else
        { fs := if memFs fs fname then fs else insertFs fs fname [],
          ans := { error := some ("Failed to write to file ".toList ++ fname) },
          tr := block 2 }
    else
      { fs := fs,
        ans := { error := some ("Failed to open file ".toList ++ fname) },
        tr := block 0 }

/-! ## Balance of `writeEvent` calls and file operations (claim C9) -/

/-- Scan a trace tracking the lock state: locks must alternate, and every
file operation must occur while locked. -/
def balScan : List Ev → Bool → Bool
  | [], locked => !locked
  | Ev.lock true :: t, false => balScan t true
  | Ev.lock true :: _, true => false
  | Ev.lock false :: t, true => balScan t false
  | Ev.lock false :: _, false => false
  | Ev.fop :: t, locked => locked && balScan t locked

def balancedB (tr : List Ev) : Bool := balScan tr false

theorem balScan_replicate_fop (n : Nat) (rest : List Ev) :
    balScan (List.replicate n Ev.fop ++ rest) true = balScan rest true := by
  induction n with
  | zero => rfl
  | succ n ih =>
    rw [List.replicate_succ]
    show (true && balScan (List.replicate n Ev.fop ++ rest) true) = _
    rw [Bool.true_and, ih]

theorem balancedB_block (n : Nat) : balancedB (block n) = true := by
  unfold balancedB block
  show balScan (List.replicate n Ev.fop ++ [Ev.lock false]) true = true
  rw [balScan_replicate_fop]
  rfl

/-- C9: every command path of the SPIFFS dispatcher, and `writeBuffer`,
produces a trace in which `writeEvent(true)` precedes any mutating file
operation, `writeEvent(false)` follows the last one, and the two calls are
balanced — on every branch, including all error branches. -/
theorem claim_C9_write_event_bracketing :
    (∀ (cmd : SCmd) (io : IoOk) (fs : Fs),
      balancedB (runSpiffs cmd io fs).tr = true) ∧
    (∀ (openOk writeOk : Bool) (fname : Name) (data : List Nat) (fs : Fs),
      balancedB (writeBufferT openOk writeOk fname data fs).2.2 = true) := by
  constructor
  · intro cmd io fs
    cases cmd with
    | ls d => exact balancedB_block 0
    | rd f => rfl
    | rt f => rfl
    | rm f =>
      simp only [runSpiffs]
      split
      · exact balancedB_block 1
      · exact balancedB_block 0
    | trans mode clear =>
      simp only [runSpiffs]
      split
      · exact balancedB_block _
      · split
        · exact balancedB_block 2
        · rfl
    | ren o n =>
      simp only [runSpiffs]
      split
      · split
        · split
          · exact balancedB_block 2
          · exact balancedB_block 2
        · split
          · exact balancedB_block 1
          · exact balancedB_block 1
      · split
        · exact balancedB_block 0
        · exact balancedB_block 0
    | wr f data off =>
      cases data with
      | none => rfl
      | some hexString =>
        simp only [runSpiffs]
        cases hdec : decodeHex hexString with
        | none => rfl
        | some bytes =>
          split
          · rename_i heq
            exact absurd heq (by simp)
          · split
            · split
              · split
                · exact balancedB_block 4
                · exact balancedB_block 4
              · split
                · exact balancedB_block 1
                · split
                  · exact balancedB_block 2
                  · exact balancedB_block 2
            · exact balancedB_block 0
    | ct f text =>
      simp only [runSpiffs]
      split
      · split
        · exact balancedB_block 2
        · exact balancedB_block 2
      · exact balancedB_block 0
    | atxt f text =>
      simp only [runSpiffs]
      split
      · split
        · exact balancedB_block 2
        · exact balancedB_block 2
      · exact balancedB_block 0
  · intro openOk writeOk fname data fs
    unfold writeBufferT
    split
    · split
      · exact balancedB_block 2
      · exact balancedB_block 2
    · exact balancedB_block 0

/-- C7: deleting an absent file yields the soft "does not exist" warning and
the nominal `fd` field, never an `error` (and the model is total: nothing is
thrown); the state is unchanged, so a second identical call warns again. -/
theorem claim_C7_idempotent_delete (fs : Fs) (io : IoOk) (fname : Name)
    (h : memFs fs fname = false) :
    (runSpiffs (SCmd.rm fname) io fs).ans.warning
        = some ("File do not exist".toList) ∧
    (runSpiffs (SCmd.rm fname) io fs).ans.error = none ∧
    (runSpiffs (SCmd.rm fname) io fs).ans.fd = some fname ∧
    (runSpiffs (SCmd.rm fname) io fs).fs = fs ∧
    (runSpiffs (SCmd.rm fname) io (runSpiffs (SCmd.rm fname) io fs).fs).ans.warning
        = some ("File do not exist".toList) ∧
    (runSpiffs (SCmd.rm fname) io (runSpiffs (SCmd.rm fname) io fs).fs).ans.error
        = none := by
  have hcond : ¬ memFs fs fname = true := by
    rw [h]
    simp
  have hres : runSpiffs (SCmd.rm fname) io fs =
      { fs := fs,
        ans := { warning := some ("File do not exist".toList), fd := some fname },
        tr := block 0 } := by
    simp only [runSpiffs]
    rw [if_neg hcond]
  refine ⟨by rw [hres], by rw [hres], by rw [hres], by rw [hres], ?_, ?_⟩
  · rw [hres]
    show (runSpiffs (SCmd.rm fname) io fs).ans.warning = _
    rw [hres]
  · rw [hres]
    show (runSpiffs (SCmd.rm fname) io fs).ans.error = _
    rw [hres]

/-- C7 witness: the theorem applied to the empty directory and name `"x"`. -/
theorem claim_C7_witness :
    memFs ([] : Fs) ['x'] = false ∧
    (runSpiffs (SCmd.rm ['x']) {} ([] : Fs)).ans.warning
      = some ("File do not exist".toList) ∧
    (runSpiffs (SCmd.rm ['x']) {}
        (runSpiffs (SCmd.rm ['x']) {} ([] : Fs)).fs).ans.warning
      = some ("File do not exist".toList) :=
  ⟨rfl, (claim_C7_idempotent_delete [] {} ['x'] rfl).1,
    (claim_C7_idempotent_delete [] {} ['x'] rfl).2.2.2.2.1⟩

/-- C3 (amended): whenever the hex decode fails — `std::stoi` base 16
rejects some two-character group, i.e. the group has no hex digit at its
start after optional whitespace/sign — the `wr` command reports an error and
performs no file I/O at all: no event is raised and the state is returned
untouched, because the whole payload is decoded before the first file
operation.  (A group like `"0g"` parses as the digit `0`, so a non-hex
character in second position is silently accepted, not rejected.) -/
theorem claim_C3_decode_before_io (fs : Fs) (io : IoOk) (fname : Name)
    (hexString : List Char) (offset? : Option Nat)
    (h : decodeHex hexString = none) :
    ((runSpiffs (SCmd.wr fname (some hexString) offset?) io fs).ans.error).isSome
        = true ∧
    (runSpiffs (SCmd.wr fname (some hexString) offset?) io fs).fs = fs ∧
    (runSpiffs (SCmd.wr fname (some hexString) offset?) io fs).tr = [] := by
  simp only [runSpiffs]
  rw [h]
  exact ⟨rfl, rfl, rfl⟩

/-- C3 witness: the amended theorem at the malformed payload `"g0"`, whose
first group has no leading hex digit. -/
theorem claim_C3_witness :
    decodeHex "g0".toList = none ∧
    (runSpiffs (SCmd.wr ['f'] (some "g0".toList) none) {} ([] : Fs)).fs = [] :=
  ⟨by decide, (claim_C3_decode_before_io [] {} ['f'] "g0".toList none (by decide)).2.1⟩

/-- C3 counterexample: the payload `"0g"` contains the non-hex character
`'g'`, yet the command raises no error and writes the byte `0x00`:
`std::stoi("0g", nullptr, 16)` parses the leading `0` and stops at `'g'`
instead of throwing, so the claim's "any non-hex character aborts with an
error and no file I/O" is false as stated. -/
theorem claim_C3_counterexample :
    ("0g".toList.any fun c => !(hexVal c).isSome) = true ∧
    (runSpiffs (SCmd.wr ['f'] (some "0g".toList) none) {} ([] : Fs)).ans.error
      = none ∧
    lookupFs (runSpiffs (SCmd.wr ['f'] (some "0g".toList) none) {} ([] : Fs)).fs
      ['f'] = some [0] := by
  refine ⟨by decide, by decide, by decide⟩

/-- C4: `wr` offset semantics on an existing file of size `N = c.length`
under successful I/O.  An offset below `N` truncates to the offset, answers
`rewrite:true` and appends there; an offset beyond `N` is rejected with an
error, no bytes written, no truncation; offset `0` on a nonempty file leaves
exactly the freshly written bytes. -/
theorem claim_C4_wr_offset (fs : Fs) (fname : Name) (hexString : List Char)
    (offset : Nat) (bytes : List Nat) (c : Content)
    (hdec : decodeHex hexString = some bytes)
    (hfile : lookupFs fs fname = some c) :
    (offset < c.length →
      (runSpiffs (SCmd.wr fname (some hexString) (some offset)) {} fs).ans.rewrite
          = true ∧
      (runSpiffs (SCmd.wr fname (some hexString) (some offset)) {} fs).ans.error
          = none ∧
      lookupFs (runSpiffs (SCmd.wr fname (some hexString) (some offset)) {} fs).fs
          fname = some (c.take offset ++ bytes)) ∧
    (c.length < offset →
      ((runSpiffs (SCmd.wr fname (some hexString) (some offset)) {} fs).ans.error).isSome
          = true ∧
      (runSpiffs (SCmd.wr fname (some hexString) (some offset)) {} fs).ans.rewrite
          = false ∧
      lookupFs (runSpiffs (SCmd.wr fname (some hexString) (some offset)) {} fs).fs
          fname = some c) ∧
    (offset = 0 → 0 < c.length →
      lookupFs (runSpiffs (SCmd.wr fname (some hexString) (some offset)) {} fs).fs
          fname = some bytes) := by
  have hmem : memFs fs fname = true := by
    unfold memFs
    rw [hfile]
    rfl
  have hres : runSpiffs (SCmd.wr fname (some hexString) (some offset)) {} fs =
      (if offset < c.length then
        { fs := insertFs fs fname (c.take offset ++ bytes),
          ans := { rewrite := true, fw := some fname,
                   offsetA := if offset ≠ 0 then some offset else none,
                   sizeA := some bytes.length },
          tr := block 4 }
      else if offset ≠ c.length then
        { fs := if memFs fs fname then fs else insertFs fs fname [],
          ans := { error := some ("Wrong offset of file ".toList ++ fname) },
          tr := block 1 }
      else
        { fs := insertFs fs fname (c ++ bytes),
          ans := { fw := some fname,
                   offsetA := if offset ≠ 0 then some offset else none,
                   sizeA := some bytes.length },
          tr := block 2 }) := by
    simp only [runSpiffs]
    rw [hdec, hfile]
    rfl
  refine ⟨?_, ?_, ?_⟩
  · intro hlt
    rw [hres, if_pos hlt]
    exact ⟨rfl, rfl, by rw [lookupFs_insertFs, if_pos rfl]⟩
  · intro hgt
    have h1 : ¬ offset < c.length := by omega
    have h2 : offset ≠ c.length := by omega
    rw [hres, if_neg h1, if_pos h2]
    refine ⟨rfl, rfl, ?_⟩
    show lookupFs (if memFs fs fname then fs else insertFs fs fname []) fname = some c
    rw [if_pos hmem, hfile]
  · intro h0 hpos
    subst h0
    rw [hres, if_pos hpos, lookupFs_insertFs, if_pos rfl]
    rw [List.take_zero, List.nil_append]

/-- C4 witness: a two-byte file rewritten at offset 0 with payload
`"aa"`. -/
theorem claim_C4_witness :
    decodeHex "aa".toList = some [170] ∧
    lookupFs [(['f'], [1, 2])] ['f'] = some [1, 2] ∧
    lookupFs (runSpiffs (SCmd.wr ['f'] (some "aa".toList) (some 0)) {}
        [(['f'], [1, 2])]).fs ['f'] = some [170] :=
  ⟨by decide, by decide,
    (claim_C4_wr_offset [(['f'], [1, 2])] ['f'] "aa".toList 0 [170] [1, 2]
      (by decide) (by decide)).2.2 rfl (by decide)⟩

/-- C10 (code bug, evaluated): for the odd-length hex payload `"a"` the
destination vector has `1 / 2 = 0` elements while the decode loop parses the
final single-character group successfully and stores at index `0` — an
out-of-bounds write. -/
theorem claim_C10_oob_eval :
    wrVecLen "a".toList = 0 ∧ wrStoreIxs "a".toList 0 = [0] ∧
    ((wrStoreIxs "a".toList 0).any fun j => decide (wrVecLen "a".toList ≤ j))
      = true := by
  refine ⟨by decide, by decide, by decide⟩

/-! ## Claim C8: `clearDir` characterization -/

/-- `clearDir` stages an entry exactly when it is not the base of a
staged-rename entry, has length > 1 and ends in no reserved character. -/
def eligEntry (tf : List Name) (str : Name) : Bool :=
  !(decide (str ∈ tf))
    && (decide (1 < str.length) && !(lastIs str '!') && !(lastIs str '$'))

theorem clearFold_lookup (tf : List Name) (dir : Name) (l : List Name) :
    ∀ (st : Fs × Nat) (x : Name),
      lookupFs (l.foldl (clearStep tf dir) st).1 x =
        if l.any (fun str => eligEntry tf str
            && decide (x = dir ++ ['/'] ++ str ++ ['!'])) then some []
        else lookupFs st.1 x := by
  induction l with
  | nil =>
    intro st x
    simp
  | cons str l ih =>
    intro st x
    show lookupFs (l.foldl (clearStep tf dir) (clearStep tf dir st str)).1 x = _
    rw [ih]
    by_cases h1 : str ∈ tf
    · have hstep : clearStep tf dir st str = st := by
        unfold clearStep
        rw [if_pos h1]
      have helig : eligEntry tf str = false := by
        unfold eligEntry
        simp [h1]
      rw [hstep]
      simp only [List.any_cons, helig, Bool.false_and, Bool.false_or]
    · by_cases h2 : (decide (1 < str.length)
          && !(lastIs str '!') && !(lastIs str '$')) = true
      · have hstep : clearStep tf dir st str =
            (insertFs st.1 (dir ++ ['/'] ++ str ++ ['!']) [], st.2 + 1) := by
          unfold clearStep
          rw [if_neg h1, if_pos h2]
        have helig : eligEntry tf str = true := by
          unfold eligEntry
          rw [h2]
          simp [h1]
        rw [hstep]
        simp only [List.any_cons, helig, Bool.true_and]
        by_cases htail : (l.any fun s => eligEntry tf s
            && decide (x = dir ++ ['/'] ++ s ++ ['!'])) = true
        · rw [htail]
          simp
        · rw [Bool.eq_false_iff.mpr htail]
          simp only [Bool.or_false]
          by_cases hx : x = dir ++ ['/'] ++ str ++ ['!']
          · simp [hx, lookupFs_insertFs]
          · simp [hx, lookupFs_insertFs]
      · have hstep : clearStep tf dir st str = st := by
          unfold clearStep
          rw [if_neg h1, if_neg h2]
        have helig : eligEntry tf str = false := by
          unfold eligEntry
          rw [Bool.eq_false_iff.mpr h2]
          simp
        rw [hstep]
        simp only [List.any_cons, helig, Bool.false_and, Bool.false_or]

theorem clearFold_count (tf : List Name) (dir : Name) (l : List Name) :
    ∀ st : Fs × Nat,
      (l.foldl (clearStep tf dir) st).2 = st.2 + l.countP (eligEntry tf) := by
  induction l with
  | nil =>
    intro st
    simp
  | cons str l ih =>
    intro st
    show (l.foldl (clearStep tf dir) (clearStep tf dir st str)).2 = _
    rw [ih]
    by_cases h1 : str ∈ tf
    · have hstep : clearStep tf dir st str = st := by
        unfold clearStep
        rw [if_pos h1]
      have helig : eligEntry tf str = false := by
        unfold eligEntry
        simp [h1]
      rw [hstep, List.countP_cons, helig]
      simp
    · by_cases h2 : (decide (1 < str.length)
          && !(lastIs str '!') && !(lastIs str '$')) = true
      · have hstep : clearStep tf dir st str =
            (insertFs st.1 (dir ++ ['/'] ++ str ++ ['!']) [], st.2 + 1) := by
          unfold clearStep
          rw [if_neg h1, if_pos h2]
        have helig : eligEntry tf str = true := by
          unfold eligEntry
          rw [h2]
          simp [h1]
        rw [hstep, List.countP_cons, helig]
        simp
        omega
      · have hstep : clearStep tf dir st str = st := by
          unfold clearStep
          rw [if_neg h1, if_neg h2]
        have helig : eligEntry tf str = false := by
          unfold eligEntry
          rw [Bool.eq_false_iff.mpr h2]
          simp
        rw [hstep, List.countP_cons, helig]
        simp

/-- C8 (amended): `clearDir` creates an empty staged-delete file `name!` for
every entry of the directory that is not the base of a staged-rename entry
(`name$` absent), has length at least two, and does not end in a reserved
character; it mutates no entry other than these staged-delete files; and its
return value is the number of such entries.  (The claim as stated omits the
length requirement: a one-character file name is skipped by the source.) -/
theorem claim_C8_clearDir_staging (fs : Fs) (dir : Name) :
    (∀ str ∈ clearDirEntries fs dir,
      (str ++ ['$']) ∉ clearDirEntries fs dir →
      1 < str.length → lastIs str '!' = false → lastIs str '$' = false →
      lookupFs (clearDir fs dir).1 (dir ++ ['/'] ++ str ++ ['!']) = some []) ∧
    (∀ x, (∀ str ∈ clearDirEntries fs dir, x ≠ dir ++ ['/'] ++ str ++ ['!']) →
      lookupFs (clearDir fs dir).1 x = lookupFs fs x) ∧
    (clearDir fs dir).2 =
      (clearDirEntries fs dir).countP
        (eligEntry (transFilesOf (clearDirEntries fs dir))) := by
  refine ⟨?_, ?_, ?_⟩
  · intro str hmem hnodollar hlen hnb hnd
    have hnotf : str ∉ transFilesOf (clearDirEntries fs dir) := by
      intro htf
      unfold transFilesOf at htf
      obtain ⟨s, hs, hcond⟩ := List.mem_filterMap.mp htf
      by_cases hc : (decide (1 < s.length) && lastIs s '$') = true
      · rw [if_pos hc] at hcond
        have hdrop : s.dropLast = str := Option.some_inj.mp hcond
        have hlast : lastIs s '$' = true := by
          rw [Bool.and_eq_true] at hc
          exact hc.2
        have hrs : s = str ++ ['$'] := by
          have := reconstruct_of_lastIs hlast
          rw [hdrop] at this
          exact this
        exact hnodollar (hrs ▸ hs)
      · rw [if_neg hc] at hcond
        simp at hcond
    have helig : eligEntry (transFilesOf (clearDirEntries fs dir)) str = true := by
      unfold eligEntry
      rw [hnb, hnd]
      simp [hnotf, hlen]
    unfold clearDir
    rw [clearFold_lookup]
    rw [if_pos ?_]
    exact List.any_eq_true.mpr ⟨str, hmem, by rw [helig]; simp⟩
  · intro x hx
    unfold clearDir
    rw [clearFold_lookup]
    have hcond : ((clearDirEntries fs dir).any fun str =>
        eligEntry (transFilesOf (clearDirEntries fs dir)) str
          && decide (x = dir ++ ['/'] ++ str ++ ['!'])) = false := by
      rw [Bool.eq_false_iff]
      intro h
      obtain ⟨str, hs, hc⟩ := List.any_eq_true.mp h
      rw [Bool.and_eq_true, decide_eq_true_eq] at hc
      exact hx str hs hc.2
    rw [hcond]
    simp
  · unfold clearDir
    rw [clearFold_count]
    simp

/-- C8 counterexample: the directory `d` contains only the one-character
file `a`, which is not staged for rename and does not end in a reserved
character, yet `clearDir` creates no `a!` and returns 0 — the source skips
names of length 1. -/
theorem claim_C8_counterexample :
    (clearDir [(['d', '/', 'a'], [5])] ['d']).2 = 0 ∧
    lookupFs (clearDir [(['d', '/', 'a'], [5])] ['d']).1
      (['d'] ++ ['/'] ++ ['a'] ++ ['!']) = none := by
  refine ⟨by decide, by decide⟩

/-- C8 witness: one eligible two-character entry gets staged. -/
theorem claim_C8_witness :
    ['a', 'b'] ∈ clearDirEntries [(['d', '/', 'a', 'b'], [1])] ['d'] ∧
    lookupFs (clearDir [(['d', '/', 'a', 'b'], [1])] ['d']).1
      (['d'] ++ ['/'] ++ ['a', 'b'] ++ ['!']) = some [] :=
  ⟨by decide,
    (claim_C8_clearDir_staging [(['d', '/', 'a', 'b'], [1])] ['d']).1
      ['a', 'b'] (by decide) (by decide) (by decide) (by decide) (by decide)⟩

/-! ## CBufferSystem (src/CBufferSystem.cpp)

The component state mirrors the member variables: `mBuffer` (with its byte
contents), `mSize` (`uint32_t`), `mPart` (`uint16_t`), the `mParts` flag
array, `mLastPart` (`uint16_t`) and `mRead`.  `heap_caps_malloc` may fail;
its outcome is a parameter (`allocOk`).  Freshly allocated memory holds
unspecified bytes, modelled as zeros — no claim observes them before they
are overwritten. -/

def BUF_PART_SIZE : Nat := 200

structure BufState where
  buffer : Option (List Nat) := none
  size : Nat := 0
  part : Nat := BUF_PART_SIZE
  parts : Option (List Bool) := none
  lastPart : Nat := 0
  readMode : Bool := false
deriving DecidableEq

/-- `CBufferSystem::free` (lines 47-62): the flag array is only released
when a buffer was actually allocated. -/
def freeB (st : BufState) : BufState :=
  if st.buffer.isSome then { st with buffer := none, parts := none } else st

/-- `CBufferSystem::init` (lines 22-42): frees any previous buffer first,
then attempts the allocation. -/
def initB (allocOk : Bool) (size : Nat) (st : BufState) : Bool × BufState :=
  let st1 := freeB st
  if allocOk then
    (true, { st1 with buffer := some (List.replicate size 0), size := size })
  else
    (false, st1)

/-- Truncation to `uint16_t`. -/
def u16 (n : Nat) : Nat := n % 65536

/-- `mLastPart = mSize / mPart; if (mSize %% mPart == 0) mLastPart--;`
with `uint16_t` wraparound on both the assignment and the decrement. -/
def lastPartOf (size p : Nat) : Nat :=
  if size % p = 0 then u16 (u16 (size / p) + 65535) else u16 (size / p)

/-- The `create` branch of `CBufferSystem::command` (lines 80-118): returns
the new state and the `error` answer field (`none` on success). -/
def createCmd (allocOk : Bool) (x : Nat) (part? : Option Nat) (st : BufState) :
    BufState × Option (List Char) :=
  match initB allocOk x st with
  | (true, st1) =>
    let p := u16 (part?.getD BUF_PART_SIZE)
    let lp := lastPartOf st1.size p
    ({ st1 with
        part := p, lastPart := lp,
        parts := some (List.replicate (lp + 1) false), readMode := false }, none)
  | (false, st1) => (st1, some ("Buf not created ".toList))

/-- `memcpy(&mBuffer[off], src, src.length)` within an adequately sized
buffer. -/
def writeBytes (buf : List Nat) (off : Nat) (bytes : List Nat) : List Nat :=
  buf.take off ++ bytes ++ buf.drop (off + bytes.length)

/-- `CBufferSystem::addData` (lines 279-327).  `data` is the raw packet
(2-byte little-endian part index, then payload), its length being the `size`
argument.  A wrong-length packet, an out-of-range index, or a missing
buffer/flag array leaves the state unchanged (the source only logs);
an accepted packet copies the payload and sets the part's flag (a rewrite
of an already-set flag leaves it set). -/
def addData (st : BufState) (data : List Nat) : BufState :=
  match st.buffer, st.parts with
  | some buf, some flags =>
    match data with
    | b0 :: b1 :: _ =>
      let part := b0 % 256 + (b1 % 256) * 256
      if part < st.lastPart then
        if data.length = st.part + 2 then
          { st with
              buffer := some (writeBytes buf (part * st.part) (data.drop 2)),
              parts := some (flags.set part true) }
        else st
      else if part = st.lastPart then
        if data.length = (st.size - st.lastPart * st.part) + 2 then
          { st with
              buffer := some (writeBytes buf (part * st.part) (data.drop 2)),
              parts := some (flags.set part true) }
        else st
      else st
    | _ => st
  | _, _ => st

/-- C5 counterexample: after a successful `create`(4, part 2), a failed
`create` reports an error but the previously created buffer and flag array
do NOT survive — `init` frees them before attempting the allocation, so the
component state is changed, not left intact. -/
theorem claim_C5_counterexample :
    (createCmd true 4 (some 2) {}).1.buffer.isSome = true ∧
    (createCmd true 4 (some 2) {}).1.parts.isSome = true ∧
    ((createCmd false 8 none (createCmd true 4 (some 2) {}).1).2).isSome = true ∧
    (createCmd false 8 none (createCmd true 4 (some 2) {}).1).1.buffer = none ∧
    (createCmd false 8 none (createCmd true 4 (some 2) {}).1).1.parts = none := by
  refine ⟨by decide, by decide, by decide, by decide, by decide⟩

/-- C5 (amended): when a `create` command's allocation fails the command
reports an error, and the resulting component state is exactly `free()` of
the previous state: no buffer and no flag array remain (a previously created
buffer is released first, it does not survive). -/
theorem claim_C5_failed_create (st : BufState) (x : Nat) (part? : Option Nat) :
    ((createCmd false x part? st).2).isSome = true ∧
    (createCmd false x part? st).1 = freeB st :=
  ⟨rfl, rfl⟩

theorem lastPartOf_eq {x p : Nat} (hx : 0 < x) (hp : 0 < p)
    (hdiv : x / p < 65536) :
    lastPartOf x p = x / p - (if x % p = 0 then 1 else 0) := by
  unfold lastPartOf u16
  by_cases h : x % p = 0
  · rw [if_pos h, if_pos h, Nat.mod_eq_of_lt hdiv]
    have h1 : 1 ≤ x / p := by
      have hle : p ≤ x := by
        by_contra hlt
        push_neg at hlt
        rw [Nat.mod_eq_of_lt hlt] at h
        omega
      exact (Nat.one_le_div_iff hp).mpr hle
    have hgen : ∀ q : Nat, 1 ≤ q → q < 65536 → (q + 65535) % 65536 = q - 1 := by
      intro q hq1 hq2
      omega
    exact hgen (x / p) h1 hdiv
  · rw [if_neg h, if_neg h, Nat.mod_eq_of_lt hdiv]
    exact (Nat.sub_zero _).symm

/-- The branch structure of `addData` on a live state and a packet of
length at least two, as plain conditionals. -/
theorem addData_eq {st : BufState} {buf : List Nat} {flags : List Bool}
    (hbuf : st.buffer = some buf) (hparts : st.parts = some flags)
    (b0 b1 : Nat) (rest : List Nat) :
    addData st (b0 :: b1 :: rest) =
      (if b0 % 256 + b1 % 256 * 256 < st.lastPart then
        if (b0 :: b1 :: rest).length = st.part + 2 then
          { st with
              buffer := some (writeBytes buf ((b0 % 256 + b1 % 256 * 256) * st.part)
                ((b0 :: b1 :: rest).drop 2)),
              parts := some (flags.set (b0 % 256 + b1 % 256 * 256) true) }
        else st
      else if b0 % 256 + b1 % 256 * 256 = st.lastPart then
        if (b0 :: b1 :: rest).length = (st.size - st.lastPart * st.part) + 2 then
          { st with
              buffer := some (writeBytes buf ((b0 % 256 + b1 % 256 * 256) * st.part)
                ((b0 :: b1 :: rest).drop 2)),
              parts := some (flags.set (b0 % 256 + b1 % 256 * 256) true) }
        else st
      else st) := by
  unfold addData
  rw [hbuf, hparts]

set_option maxRecDepth 8000 in
/-- C6: last-part sizing.  For a buffer created with total size `x` and part
size `p` (within `uint16` range, no overflow of the part count), `lastPart`
is `x / p`, decremented by one exactly when `p` divides `x`; `addData`
accepts a packet for an in-range part index only when its length is exactly
the expected part length plus the 2-byte index, leaving the state unchanged
otherwise; and in the concrete case size=450, part=200: `lastPart = 2`, part
2 expects 50 bytes, a 200+2-byte packet is rejected and a 50+2-byte packet
is accepted. -/
theorem claim_C6_last_part_sizing :
    (∀ (st : BufState) (x p : Nat), 0 < x → 0 < p → p < 65536 →
      x / p < 65536 →
      (createCmd true x (some p) st).1.lastPart
          = x / p - (if x % p = 0 then 1 else 0) ∧
      (createCmd true x (some p) st).1.size = x ∧
      (createCmd true x (some p) st).1.part = p) ∧
    (∀ (st : BufState) (buf : List Nat) (flags : List Bool)
        (data : List Nat) (b0 b1 : Nat) (rest : List Nat),
      st.buffer = some buf → st.parts = some flags → data = b0 :: b1 :: rest →
      (b0 % 256 + (b1 % 256) * 256 < st.lastPart →
        data.length ≠ st.part + 2 → addData st data = st) ∧
      (b0 % 256 + (b1 % 256) * 256 = st.lastPart →
        data.length ≠ (st.size - st.lastPart * st.part) + 2 →
        addData st data = st)) ∧
    ((createCmd true 450 (some 200) {}).1.lastPart = 2 ∧
      (createCmd true 450 (some 200) {}).1.size
        - (createCmd true 450 (some 200) {}).1.lastPart
          * (createCmd true 450 (some 200) {}).1.part = 50 ∧
      addData (createCmd true 450 (some 200) {}).1
          ([2, 0] ++ List.replicate 200 7) = (createCmd true 450 (some 200) {}).1 ∧
      (addData (createCmd true 450 (some 200) {}).1
          ([2, 0] ++ List.replicate 50 7)).parts = some [false, false, true]) := by
  refine ⟨?_, ?_, ?_, ?_, ?_, ?_⟩
  · intro st x p hx hp hplt hdlt
    have hup : u16 p = p := Nat.mod_eq_of_lt hplt
    have h1 : (createCmd true x (some p) st).1.lastPart
        = lastPartOf x (u16 p) := rfl
    have h2 : (createCmd true x (some p) st).1.size = x := rfl
    have h3 : (createCmd true x (some p) st).1.part = u16 p := rfl
    refine ⟨?_, h2, by rw [h3, hup]⟩
    rw [h1, hup]
    exact lastPartOf_eq hx hp hdlt
  · intro st buf flags data b0 b1 rest hbuf hparts hdata
    subst hdata
    constructor
    · intro hi hlen
      rw [addData_eq hbuf hparts, if_pos hi, if_neg hlen]
    · intro hi hlen
      by_cases hlt : b0 % 256 + b1 % 256 * 256 < st.lastPart
      · omega
      · rw [addData_eq hbuf hparts, if_neg hlt, if_pos hi, if_neg hlen]
  · decide
  · decide
  · decide
  · decide

/-- C6 witness: the sizing conjunct applied at size 450, part 200. -/
theorem claim_C6_witness :
    (0 < 450 ∧ 0 < 200 ∧ 200 < 65536 ∧ 450 / 200 < 65536) ∧
      (createCmd true 450 (some 200) ({} : BufState)).1.lastPart
        = 450 / 200 - (if 450 % 200 = 0 then 1 else 0) :=
  ⟨⟨by decide, by decide, by decide, by decide⟩,
    (claim_C6_last_part_sizing.1 {} 450 200 (by decide) (by decide)
      (by decide) (by decide)).1⟩

end DataFormat
